import Mathlib

/-!
The four-beam intensity scan of `poiCallback` in laser_intensity_poi_node.

A shallow embedding of `src/laser_intensity_poi_node.cpp`.

* A `float` is an IEEE binary32 value `F32`: a finite value is an integer
  number of units of `2^-149` (the spacing of the smallest floats), besides
  the two infinities and NaN.  Sums and quotients are rounded to nearest, ties
  to even, to 24 significant bits, and overflow to an infinity; comparisons
  with NaN are false.  The sign of a zero is not represented: it shows only in
  a quotient by zero, which is an infinity or NaN either way.
* `int` values are integers together with the 32-bit range in which C++ defines
  the conversion `(int)` and the subtraction `size - 4`; outside it the run is a
  `Fault`.
* `scan->ranges[j]` and `scan->intensities[j]` are unchecked `std::vector`
  reads: a read at `j ≥ length` is a `Fault`, and every successful read is
  recorded in the run's list of accesses.
* The only effect of `poiCallback` is the line it may print; the embedding
  returns the printed pair `(max_i, max)`, or `none` when nothing is printed.
-/

set_option maxRecDepth 100000

namespace LaserIntensityPoi

/-- An IEEE binary32 value.  `fin k` is the finite value `k * 2^-149`. -/
inductive F32 where
  | fin (k : Int)
  | pinf
  | ninf
  | nan
  deriving DecidableEq, Repr

deriving instance DecidableEq for Except

/-- The number of units of `2^-149` in 1. -/
def F32.unit : Nat := 2 ^ 149

/-- The float with integer value `z` (exact for `|z| ≤ 2^24`). -/
def F32.ofInt (z : Int) : F32 := .fin (z * (F32.unit : Int))

/-- The float `m * 2^e` units, that is `m * 2^(e - 149)`. -/
def F32.dyadic (m : Int) (e : Nat) : F32 := .fin (m * ((2 ^ e : Nat) : Int))

instance (n : Nat) : OfNat F32 n := ⟨F32.ofInt n⟩

/-- The least `sh` with `q / 2^sh < 2^24`: how many low bits a magnitude of
`q` units has beyond 24 significant bits.  The first argument bounds the
number of halvings and is taken as `q` itself. -/
def excess : Nat → Nat → Nat
  | 0, _ => 0
  | f + 1, q => if q < 2 ^ 24 then 0 else excess f (q / 2) + 1

/-- The integer nearest to `n / b`, ties to the even one. -/
def roundDiv (n b : Nat) : Nat :=
  if b < 2 * (n % b) ∨ (2 * (n % b) = b ∧ n / b % 2 = 1) then n / b + 1 else n / b

/-- The magnitude `n / b` units rounded to 24 significant bits, ties to even. -/
def roundMag (n b : Nat) : Nat :=
  roundDiv n (b * 2 ^ excess (n / b) (n / b)) * 2 ^ excess (n / b) (n / b)

/-- The first magnitude beyond the finite floats, `2^128`, in units. -/
def F32.huge : Nat := 2 ^ 128 * 2 ^ 149

/-- The float nearest to `± n / b` units; a rounded magnitude of `2^128` or
more is an infinity. -/
def round32 (neg : Bool) (n b : Nat) : F32 :=
  if roundMag n b < F32.huge then
    .fin (if neg then -(roundMag n b : Int) else (roundMag n b : Int))
  else if neg then .ninf else .pinf

/-- Float addition `a + b`. -/
def fadd : F32 → F32 → F32
  | .fin a, .fin b => round32 (decide (a + b < 0)) (a + b).natAbs 1
  | .nan, _ => .nan
  | _, .nan => .nan
  | .pinf, .ninf => .nan
  | .ninf, .pinf => .nan
  | .pinf, _ => .pinf
  | _, .pinf => .pinf
  | .ninf, _ => .ninf
  | _, .ninf => .ninf

/-- Float negation. -/
def fneg : F32 → F32
  | .fin a => .fin (-a)
  | .pinf => .ninf
  | .ninf => .pinf
  | .nan => .nan

/-- Float subtraction `a - b`. -/
def fsub (a b : F32) : F32 := fadd a (fneg b)

/-- Float division `a / b`. -/
def fdiv : F32 → F32 → F32
  | .nan, _ => .nan
  | _, .nan => .nan
  | .fin a, .fin b =>
    if b = 0 then (if a = 0 then .nan else if 0 < a then .pinf else .ninf)
    else round32 (decide ((a < 0) ≠ (b < 0))) (a.natAbs * F32.unit) b.natAbs
  | .fin _, _ => .fin 0
  | .pinf, .fin b => if b < 0 then .ninf else .pinf
  | .ninf, .fin b => if b < 0 then .pinf else .ninf
  | _, _ => .nan

/-- Float comparison `a < b`: false when either side is NaN. -/
def flt : F32 → F32 → Bool
  | .nan, _ => false
  | _, .nan => false
  | .fin a, .fin b => decide (a < b)
  | .fin _, .pinf => true
  | .ninf, .fin _ => true
  | .ninf, .pinf => true
  | _, _ => false

/-- Float comparison `a <= b`: false when either side is NaN. -/
def fle : F32 → F32 → Bool
  | .nan, _ => false
  | _, .nan => false
  | .fin a, .fin b => decide (a ≤ b)
  | _, .pinf => true
  | .ninf, _ => true
  | _, _ => false

/-- Float comparison `a != b`: true when either side is NaN. -/
def fne : F32 → F32 → Bool
  | .nan, _ => true
  | _, .nan => true
  | a, b => decide (a ≠ b)

def INT_MIN : Int := -2147483648

def INT_MAX : Int := 2147483647

/-- The conversion `(int)x`: rounding toward zero, defined when `x` is finite
and the result is an `int`. -/
def F32.toInt : F32 → Option Int
  | .fin k =>
    if INT_MIN ≤ k.tdiv (F32.unit : Int) ∧ k.tdiv (F32.unit : Int) ≤ INT_MAX then
      some (k.tdiv (F32.unit : Int))
    else none
  | _ => none

/-- The real value of a finite float (0 for the values that have none). -/
def F32.toRat : F32 → ℚ
  | .fin k => (k : ℚ) / (F32.unit : ℚ)
  | _ => 0

/-- The value is exactly a float: rounding leaves it unchanged. -/
def F32.isFloat (x : F32) : Bool := decide (fadd x (.fin 0) = x)

/-- The fields of `sensor_msgs::LaserScan` that `poiCallback` uses. -/
structure LaserScan where
  angle_min : F32
  angle_max : F32
  angle_increment : F32
  range_min : F32
  range_max : F32
  ranges : List F32
  intensities : List F32

/-- The two per-beam sequences of a frame. -/
inductive Channel where
  | ranges
  | intensities
  deriving DecidableEq, Repr

/-- One element read `scan->ranges[index]` or `scan->intensities[index]`. -/
structure Access where
  channel : Channel
  index : Nat
  deriving DecidableEq, Repr

/-- The ways a run of `poiCallback` leaves defined behaviour. -/
inductive Fault where
  /-- Line 38: the quotient has no `int` value (infinite, NaN, or out of range). -/
  | undefinedSize
  /-- Line 46: `size - 4` overflows `int`. -/
  | boundOverflow
  /-- Lines 51-60: a vector is read at an index that is not below its length. -/
  | readPastEnd (a : Access)
  deriving DecidableEq, Repr

/-- The locals `max` and `max_i` of `poiCallback` (lines 41-42). -/
structure ScanState where
  max : F32
  max_i : Nat
  deriving DecidableEq

/-- What a completed run did: the element reads in program order and the pair
printed on line 72, if any. -/
structure Outcome where
  reads : List Access
  printed : Option (Nat × F32)
  deriving DecidableEq

/-- The sequence of a frame that a channel names. -/
def LaserScan.seq (scan : LaserScan) : Channel → List F32
  | .ranges => scan.ranges
  | .intensities => scan.intensities

/-- Line 38: `int size = (int)((angle_max - angle_min) / angle_increment)`, a
float subtraction and a float division, each rounded, then the conversion. -/
def size (scan : LaserScan) : Option Int :=
  F32.toInt (fdiv (fsub scan.angle_max scan.angle_min) scan.angle_increment)

/-- Line 46: the loop bound `size - 4`, a signed subtraction, defined when the
difference is an `int`. -/
def loopBound (sz : Int) : Option Int :=
  if INT_MIN ≤ sz - 4 then some (sz - 4) else none

/-- The range test of lines 51-54 over the beams `js`, left to right with the
short-circuit of `||`: `true` as soon as a beam is below `range_min` or above
`range_max`, without reading the beams after it.  Both comparisons of one beam
read the same element, recorded once. -/
def anyOutside (scan : LaserScan) : List Nat → Except Fault (Bool × List Access)
  | [] => .ok (false, [])
  | j :: js =>
    match scan.ranges[j]? with
    | none => .error (.readPastEnd ⟨.ranges, j⟩)
    | some r =>
      if flt r scan.range_min = true ∨ flt scan.range_max r = true then
        .ok (true, [⟨.ranges, j⟩])
      else
        match anyOutside scan js with
        | .error e => .error e
        | .ok (b, rs) => .ok (b, ⟨.ranges, j⟩ :: rs)

/-- The float expression `a + b + c + d` of lines 57-60: three additions from
the left, each rounded. -/
def sum4 (a b c d : F32) : F32 := fadd (fadd (fadd a b) c) d

/-- Lines 57-60: `intensities[i] + intensities[i+1] + intensities[i+2] +
intensities[i+3]`, read and added left to right. -/
def readSum (scan : LaserScan) (i : Nat) : Except Fault F32 :=
  match scan.intensities[i]? with
  | none => .error (.readPastEnd ⟨.intensities, i⟩)
  | some a =>
    match scan.intensities[i + 1]? with
    | none => .error (.readPastEnd ⟨.intensities, i + 1⟩)
    | some b =>
      match scan.intensities[i + 2]? with
      | none => .error (.readPastEnd ⟨.intensities, i + 2⟩)
      | some c =>
        match scan.intensities[i + 3]? with
        | none => .error (.readPastEnd ⟨.intensities, i + 3⟩)
        | some d => .ok (sum4 a b c d)

/-- The accesses of one evaluation of lines 57-60. -/
def sumReads (i : Nat) : List Access :=
  [⟨.intensities, i⟩, ⟨.intensities, i + 1⟩, ⟨.intensities, i + 2⟩, ⟨.intensities, i + 3⟩]

/-- One pass through the loop body (lines 47-69) at loop value `i`: the new
`max`/`max_i` and the reads of this pass.  Line 63 is
`temp > max && temp > 90`. -/
def body (scan : LaserScan) (i : Nat) (st : ScanState) :
    Except Fault (ScanState × List Access) :=
  match anyOutside scan [i, i + 1, i + 2, i + 3] with
  | .error e => .error e
  | .ok (true, rs) => .ok (st, rs)
  | .ok (false, rs) =>
    match readSum scan i with
    | .error e => .error e
    | .ok temp =>
      if flt st.max temp = true ∧ flt 90 temp = true then .ok (⟨temp, i⟩, rs ++ sumReads i)
      else .ok (st, rs ++ sumReads i)

/-- The loop `for (int i = ...; i < size - 4; ++i)` of line 46, entered at loop
value `i` with `n` passes left. -/
def loopFrom (scan : LaserScan) : Nat → Nat → ScanState →
    Except Fault (ScanState × List Access)
  | _, 0, st => .ok (st, [])
  | i, n + 1, st =>
    match body scan i st with
    | .error e => .error e
    | .ok (st1, rs) =>
      match loopFrom scan (i + 1) n st1 with
      | .error e => .error e
      | .ok (st2, rs2) => .ok (st2, rs ++ rs2)

/-- Line 72: the pair is printed when `max != 0`. -/
def report (st : ScanState) : Option (Nat × F32) :=
  if fne st.max (.fin 0) = true then some (st.max_i, st.max) else none

/-- The callback `poiCallback` (lines 35-73): `size`, the loop from `i = 0`
with `max = 0`, `max_i = 0` while `i < size - 4`, then the print. -/
def poiCallback (scan : LaserScan) : Except Fault Outcome :=
  match size scan with
  | none => .error .undefinedSize
  | some sz =>
    match loopBound sz with
    | none => .error .boundOverflow
    | some bound =>
      match loopFrom scan 0 bound.toNat ⟨.fin 0, 0⟩ with
      | .error e => .error e
      | .ok (st, rs) => .ok ⟨rs, report st⟩

/-- The pair a run prints: `none` when the run does not complete. -/
def printedBy (scan : LaserScan) : Option (Option (Nat × F32)) :=
  match poiCallback scan with
  | .error _ => none
  | .ok out => some out.printed

/-- The derived beam count `N` of a frame: the value of `size` on a frame for
which `size` and the loop bound `size - 4` are both defined. -/
def beamCount (scan : LaserScan) : Option Int :=
  match size scan with
  | none => none
  | some sz =>
    match loopBound sz with
    | none => none
    | some _ => some sz

/-- Beam `j` has a range inside the closed interval `[range_min, range_max]`. -/
def beamInRange (scan : LaserScan) (j : Nat) : Prop :=
  ∃ r, scan.ranges[j]? = some r ∧ fle scan.range_min r = true ∧ fle r scan.range_max = true

/-- Beam `j` passes the test of lines 51-54: its range is neither below
`range_min` nor above `range_max`. -/
def beamPasses (scan : LaserScan) (j : Nat) : Prop :=
  ∃ r, scan.ranges[j]? = some r ∧ flt r scan.range_min = false ∧
    flt scan.range_max r = false

/-- The window starting at `i` is valid: its four beams are in range. -/
def windowValid (scan : LaserScan) (i : Nat) : Prop :=
  beamInRange scan i ∧ beamInRange scan (i + 1) ∧
    beamInRange scan (i + 2) ∧ beamInRange scan (i + 3)

/-- The window starting at `i` passes the test of lines 51-54. -/
def windowPasses (scan : LaserScan) (i : Nat) : Prop :=
  beamPasses scan i ∧ beamPasses scan (i + 1) ∧
    beamPasses scan (i + 2) ∧ beamPasses scan (i + 3)

/-- The window starting at `i` has computed four-intensity sum `s`: the float
sum of lines 57-60. -/
def windowSum (scan : LaserScan) (i : Nat) (s : F32) : Prop :=
  ∃ a b c d, scan.intensities[i]? = some a ∧ scan.intensities[i + 1]? = some b ∧
    scan.intensities[i + 2]? = some c ∧ scan.intensities[i + 3]? = some d ∧
    s = sum4 a b c d

/-- The window starting at `i` holds four finite intensities whose exact sum,
without any rounding, is `S` units of `2^-149`. -/
def windowExact (scan : LaserScan) (i : Nat) (S : Int) : Prop :=
  ∃ a b c d : Int, scan.intensities[i]? = some (.fin a) ∧
    scan.intensities[i + 1]? = some (.fin b) ∧
    scan.intensities[i + 2]? = some (.fin c) ∧
    scan.intensities[i + 3]? = some (.fin d) ∧ S = a + b + c + d

/-- The window starting at `i` is summed without rounding: its computed sum is
its exact sum `S`, and so is each partial sum. -/
def windowUnrounded (scan : LaserScan) (i : Nat) (S : Int) : Prop :=
  ∃ a b c d : Int, scan.intensities[i]? = some (.fin a) ∧
    scan.intensities[i + 1]? = some (.fin b) ∧
    scan.intensities[i + 2]? = some (.fin c) ∧
    scan.intensities[i + 3]? = some (.fin d) ∧ S = a + b + c + d ∧
    fadd (.fin a) (.fin b) = .fin (a + b) ∧
    fadd (.fin (a + b)) (.fin c) = .fin (a + b + c) ∧
    fadd (.fin (a + b + c)) (.fin d) = .fin (a + b + c + d)

/-- Start index `i` qualifies with sum `s` on a frame of beam count `N`: it is
a loop value (`0 ≤ i < N - 4`), the four ranges `i .. i+3` lie in the closed
interval `[range_min, range_max]`, and the computed four-intensity sum `s`
exceeds 90. -/
def qualifying (scan : LaserScan) (N : Int) (i : Nat) (s : F32) : Prop :=
  (i : Int) < N - 4 ∧ windowValid scan i ∧ windowSum scan i s ∧ flt 90 s = true

/-- Neither sensor limit and no range of the frame is NaN. -/
def LaserScan.rangesOrdered (scan : LaserScan) : Prop :=
  fle scan.range_min scan.range_min = true ∧ fle scan.range_max scan.range_max = true ∧
    ∀ r ∈ scan.ranges, fle r r = true

/-- Every field of the frame is exactly a float. -/
def LaserScan.wellFormed (scan : LaserScan) : Bool :=
  F32.isFloat scan.angle_min && F32.isFloat scan.angle_max &&
    F32.isFloat scan.angle_increment && F32.isFloat scan.range_min &&
    F32.isFloat scan.range_max && scan.ranges.all F32.isFloat &&
    scan.intensities.all F32.isFloat

/-- The loop invariant on entry to the pass at loop value `i`: `max` bounds the
sum of every passing window before `i` whose sum exceeds 90, and either nothing
has been recorded or `max_i` is the first passing window before `i` with sum
`max > 90`. -/
def Inv (scan : LaserScan) (i : Nat) (st : ScanState) : Prop :=
  (∀ j s, j < i → windowPasses scan j → windowSum scan j s → flt 90 s = true →
    fle s st.max = true) ∧
  (st = ⟨.fin 0, 0⟩ ∨
    (flt 90 st.max = true ∧ st.max_i < i ∧ windowPasses scan st.max_i ∧
      windowSum scan st.max_i st.max ∧
      ∀ j s, j < st.max_i → windowPasses scan j → windowSum scan j s →
        fle st.max s = false))

/-- A frame whose angles give `n` unit steps (`angle_min = 0`,
`angle_max = n`, `angle_increment = 1`), with ranges `rs`, intensities `xs`
and sensor limits `range_min = 1`, `range_max = 10`. -/
def frame (n : Int) (rs xs : List F32) : LaserScan :=
  { angle_min := 0, angle_max := F32.ofInt n, angle_increment := 1,
    range_min := 1, range_max := 10, ranges := rs, intensities := xs }

/-- Example 1 of the specification: eight beams, all ranges in bounds. -/
def example1 : LaserScan :=
  frame 8 [5, 5, 5, 5, 5, 5, 5, 5] [0, 0, 30, 40, 20, 10, 0, 0]

/-- Example 2 of the specification: Example 1 with beam 2 at `range_max + 1`. -/
def example2 : LaserScan :=
  frame 8 [5, 5, 11, 5, 5, 5, 5, 5] [0, 0, 30, 40, 20, 10, 0, 0]

/-- Example 3 of the specification: three beams, however bright. -/
def example3 : LaserScan :=
  frame 3 [5, 5, 5] [100, 100, 100]

/-- Four beams in range whose only window has sum 400. -/
def fourBeams : LaserScan :=
  frame 4 [5, 5, 5, 5] [100, 100, 100, 100]

/-- Nine beams; beam 2 is out of range and is the brightest of the frame. -/
def brightOutlier : LaserScan :=
  frame 9 [5, 5, 11, 5, 5, 5, 5, 5, 5] [0, 0, 500, 40, 20, 30, 10, 0, 0]

/-- Eight beams in range whose windows 1 and 2 both have the largest sum, 100. -/
def tiedWindows : LaserScan :=
  frame 8 [5, 5, 5, 5, 5, 5, 5, 5] [0, 0, 30, 40, 30, 0, 0, 0]

/-- Eight beams in range whose window sums are 70, 90, 90, 60 and 20. -/
def exactly90 : LaserScan :=
  frame 8 [5, 5, 5, 5, 5, 5, 5, 5] [0, 0, 30, 40, 20, 0, 0, 0]

/-- A frame swept with a negative increment: `(-5 - 0) / -1 = 5` steps. -/
def negativeIncrement : LaserScan :=
  { angle_min := 0, angle_max := F32.ofInt (-5), angle_increment := F32.ofInt (-1),
    range_min := 1, range_max := 10,
    ranges := [5, 5, 5, 5, 5], intensities := [100, 100, 100, 100, 100] }

/-- A frame whose angles give six steps but whose sequences hold five entries. -/
def oneShort : LaserScan :=
  frame 6 [5, 5, 5, 5, 5] [100, 100, 100, 100, 100]

/-- A frame whose angles give eight steps but whose sequences hold four
entries, all in range. -/
def fourOfEight : LaserScan :=
  frame 8 [5, 5, 5, 5] [100, 100, 100, 100]

/-- A frame whose angles give eight steps but whose sequences are empty. -/
def emptySequences : LaserScan :=
  frame 8 [] []

/-- A frame with a negative step count: `angle_max` below `angle_min`. -/
def reversedAngles : LaserScan :=
  frame (-2) [5, 5, 5, 5, 5] [100, 100, 100, 100, 100]

/-- A frame swept backwards in steps of 2: the quotient `(-7 - 0) / 2` is
`-7/2`, between `-4` and `-3`. -/
def halfStepBack : LaserScan :=
  { angle_min := 0, angle_max := F32.ofInt (-7), angle_increment := 2,
    range_min := 1, range_max := 10, ranges := [], intensities := [] }

/-- The floats nearest to 0.7 and 0.1 as `angle_max` and `angle_increment`:
`11744051 * 2^-24` and `13421773 * 2^-27`. -/
def tenthSteps : LaserScan :=
  { angle_min := 0, angle_max := F32.dyadic 11744051 125,
    angle_increment := F32.dyadic 13421773 122,
    range_min := 1, range_max := 10, ranges := [], intensities := [] }

/-- Five beams in range with intensities `2^24, 1, 1, 1, 0`. -/
def roundedScore : LaserScan :=
  frame 5 [5, 5, 5, 5, 5] [16777216, 1, 1, 1, 0]

/-- Five beams with in-range values except beam 0, whose range is NaN. -/
def nanRange : LaserScan :=
  frame 5 [.nan, 5, 5, 5, 5] [100, 100, 100, 100, 0]

/-- Six beams in range; windows 0 and 1 hold the same four intensities
(about 23.66, 28.62, 27.88, 33.13) in a different order. -/
def rotatedTie : LaserScan :=
  frame 6 [5, 5, 5, 5, 5, 5]
    [F32.dyadic 12405413 130, F32.dyadic 3750803 132, F32.dyadic 14616073 130,
      F32.dyadic 8684061 131, F32.dyadic 12405413 130, 0]

/-- Five beams in range with intensities `64 + 2^-17`, `2^-18`, `3 * 2^-18`,
`26 - 3 * 2^-17`, `0`: window 0 sums to exactly 90. -/
def roundsAbove90 : LaserScan :=
  frame 5 [5, 5, 5, 5, 5]
    [F32.dyadic 8388609 132, F32.dyadic 1 131, F32.dyadic 3 131,
      F32.dyadic 3407869 132, 0]

/-- Five beams in range with intensities `90`, `2^-20`, `0`, `0`, `0`:
window 0 sums to `90 + 2^-20`. -/
def roundsTo90 : LaserScan :=
  frame 5 [5, 5, 5, 5, 5] [90, F32.dyadic 1 129, 0, 0, 0]

/-- Five beams in range with intensities `25, 25, 25, 25, 0`. -/
def quarters : LaserScan :=
  frame 5 [5, 5, 5, 5, 5] [25, 25, 25, 25, 0]

/-- Six beams in range with intensities `0, 96, 0, 0, 2^-17, 0`. -/
def faintTail : LaserScan :=
  frame 6 [5, 5, 5, 5, 5, 5] [0, 96, 0, 0, F32.dyadic 1 132, 0]

theorem flt_irrefl (a : F32) : flt a a = false := by
  cases a <;> simp [flt]

theorem flt_trans {a b c : F32} (h1 : flt a b = true) (h2 : flt b c = true) :
    flt a c = true := by
  cases a <;> cases b <;> cases c <;> simp_all [flt]
  omega

theorem fle_refl_of_flt_left {a b : F32} (h : flt a b = true) : fle b b = true := by
  cases a <;> cases b <;> simp_all [flt, fle]

theorem fle_refl_of_flt_right {a b : F32} (h : flt a b = true) : fle a a = true := by
  cases a <;> cases b <;> simp_all [flt, fle]

theorem fle_refl_of_fle_left {a b : F32} (h : fle a b = true) : fle a a = true := by
  cases a <;> cases b <;> simp_all [fle]

theorem fle_refl_of_fle_right {a b : F32} (h : fle a b = true) : fle b b = true := by
  cases a <;> cases b <;> simp_all [fle]

theorem fle_of_not_flt {a b : F32} (ha : fle a a = true) (hb : fle b b = true)
    (h : flt b a = false) : fle a b = true := by
  cases a <;> cases b <;> simp_all [flt, fle]

theorem not_flt_of_fle {a b : F32} (h : fle a b = true) : flt b a = false := by
  cases a <;> cases b <;> simp_all [flt, fle]

theorem not_fle_of_flt {a b : F32} (h : flt a b = true) : fle b a = false := by
  cases a <;> cases b <;> simp_all [flt, fle]

theorem flt_of_fle_of_flt {a b c : F32} (h1 : fle a b = true) (h2 : flt b c = true) :
    flt a c = true := by
  cases a <;> cases b <;> cases c <;> simp_all [flt, fle]
  omega

theorem flt_of_flt_of_fle {a b c : F32} (h1 : flt a b = true) (h2 : fle b c = true) :
    flt a c = true := by
  cases a <;> cases b <;> cases c <;> simp_all [flt, fle]
  omega

theorem fle_trans {a b c : F32} (h1 : fle a b = true) (h2 : fle b c = true) :
    fle a c = true := by
  cases a <;> cases b <;> cases c <;> simp_all [fle]
  omega

theorem fle_of_flt {a b : F32} (h : flt a b = true) : fle a b = true := by
  cases a <;> cases b <;> simp_all [flt, fle]
  omega

theorem fle_antisymm {a b : F32} (h1 : fle a b = true) (h2 : fle b a = true) : a = b := by
  cases a <;> cases b <;> simp_all [fle]
  omega

theorem F32.unit_pos : (0 : Int) < (F32.unit : Int) := by decide

theorem ninety_eq : (90 : F32) = .fin (90 * (F32.unit : Int)) := rfl

/-- A sum above 90 is not the sentinel 0 of line 72. -/
theorem fne_zero_of_gt {m : F32} (h : flt 90 m = true) : fne m (.fin 0) = true := by
  rw [ninety_eq] at h
  have := F32.unit_pos
  cases m <;> simp_all [flt, fne]
  omega

theorem beamPasses_of_inRange {scan : LaserScan} {j : Nat} (h : beamInRange scan j) :
    beamPasses scan j := by
  obtain ⟨r, hr, h1, h2⟩ := h
  exact ⟨r, hr, not_flt_of_fle h1, not_flt_of_fle h2⟩

theorem windowPasses_of_valid {scan : LaserScan} {i : Nat} (h : windowValid scan i) :
    windowPasses scan i :=
  ⟨beamPasses_of_inRange h.1, beamPasses_of_inRange h.2.1,
    beamPasses_of_inRange h.2.2.1, beamPasses_of_inRange h.2.2.2⟩

theorem beamPasses_lt {scan : LaserScan} {j : Nat} (h : beamPasses scan j) :
    j < scan.ranges.length := by
  obtain ⟨r, hr, _⟩ := h
  exact (List.getElem?_eq_some.1 hr).1

theorem anyOutside_false {scan : LaserScan} : ∀ {js : List Nat} {rs : List Access},
    anyOutside scan js = .ok (false, rs) →
    (∀ j ∈ js, beamPasses scan j) ∧ rs = js.map (fun j => ⟨.ranges, j⟩)
  | [], rs, h => by
    simp [anyOutside] at h
    simp [h]
  | j :: js, rs, h => by
    unfold anyOutside at h
    cases hr : scan.ranges[j]? with
    | none => simp [hr] at h
    | some r =>
      simp only [hr] at h
      split at h
      · simp at h
      · rename_i hout
        cases hrec : anyOutside scan js with
        | error e => simp [hrec] at h
        | ok p =>
          obtain ⟨b, rs2⟩ := p
          simp only [hrec, Except.ok.injEq, Prod.mk.injEq] at h
          obtain ⟨hb, hrs⟩ := h
          subst hb
          obtain ⟨ih1, ih2⟩ := anyOutside_false hrec
          refine ⟨?_, ?_⟩
          · intro k hk
            rcases List.mem_cons.1 hk with rfl | hk
            · push_neg at hout
              exact ⟨r, hr, by simpa using hout.1, by simpa using hout.2⟩
            · exact ih1 k hk
          · simp [← hrs, ih2]

theorem anyOutside_true {scan : LaserScan} : ∀ {js : List Nat} {rs : List Access},
    anyOutside scan js = .ok (true, rs) → ∃ j ∈ js, ¬ beamPasses scan j
  | [], rs, h => by simp [anyOutside] at h
  | j :: js, rs, h => by
    unfold anyOutside at h
    cases hr : scan.ranges[j]? with
    | none => simp [hr] at h
    | some r =>
      simp only [hr] at h
      split at h
      · rename_i hout
        refine ⟨j, List.mem_cons_self _ _, ?_⟩
        rintro ⟨r2, hr2, h1, h2⟩
        rw [hr] at hr2
        cases hr2
        rcases hout with h | h
        · rw [h1] at h
          cases h
        · rw [h2] at h
          cases h
      · cases hrec : anyOutside scan js with
        | error e => simp [hrec] at h
        | ok p =>
          obtain ⟨b, rs2⟩ := p
          simp only [hrec, Except.ok.injEq, Prod.mk.injEq] at h
          obtain ⟨hb, -⟩ := h
          subst hb
          obtain ⟨k, hk, hk2⟩ := anyOutside_true hrec
          exact ⟨k, List.mem_cons_of_mem _ hk, hk2⟩

theorem anyOutside_reads {scan : LaserScan} : ∀ {js : List Nat} {b : Bool} {rs : List Access},
    anyOutside scan js = .ok (b, rs) →
    ∀ a ∈ rs, a.channel = .ranges ∧ a.index ∈ js ∧ a.index < scan.ranges.length
  | [], b, rs, h => by
    simp [anyOutside] at h
    simp [h]
  | j :: js, b, rs, h => by
    unfold anyOutside at h
    cases hr : scan.ranges[j]? with
    | none => simp [hr] at h
    | some r =>
      have hj : j < scan.ranges.length := (List.getElem?_eq_some.1 hr).1
      simp only [hr] at h
      split at h
      · simp only [Except.ok.injEq, Prod.mk.injEq] at h
        intro a ha
        rw [← h.2] at ha
        simp at ha
        subst ha
        simp [hj]
      · cases hrec : anyOutside scan js with
        | error e => simp [hrec] at h
        | ok p =>
          obtain ⟨b2, rs2⟩ := p
          simp only [hrec, Except.ok.injEq, Prod.mk.injEq] at h
          intro a ha
          rw [← h.2] at ha
          rcases List.mem_cons.1 ha with rfl | ha
          · simp [hj]
          · obtain ⟨h1, h2, h3⟩ := anyOutside_reads hrec a ha
            exact ⟨h1, List.mem_cons_of_mem _ h2, h3⟩

theorem anyOutside_total (scan : LaserScan) : ∀ (js : List Nat),
    (∀ j ∈ js, j < scan.ranges.length) → ∃ b rs, anyOutside scan js = .ok (b, rs)
  | [], _ => ⟨false, [], rfl⟩
  | j :: js, h => by
    have hj : j < scan.ranges.length := h j (List.mem_cons_self _ _)
    obtain ⟨b, rs, hrec⟩ := anyOutside_total scan js
      (fun k hk => h k (List.mem_cons_of_mem _ hk))
    unfold anyOutside
    rw [List.getElem?_eq_getElem hj]
    simp only [hrec]
    split
    · exact ⟨_, _, rfl⟩
    · exact ⟨_, _, rfl⟩

theorem anyOutside_congr {scan scan2 : LaserScan} (hr : scan2.ranges = scan.ranges)
    (hmin : scan2.range_min = scan.range_min) (hmax : scan2.range_max = scan.range_max) :
    ∀ js : List Nat, anyOutside scan2 js = anyOutside scan js
  | [] => rfl
  | j :: js => by
    unfold anyOutside
    rw [hr, hmin, hmax, anyOutside_congr hr hmin hmax js]

theorem readSum_iff {scan : LaserScan} {i : Nat} {s : F32} :
    readSum scan i = .ok s ↔ windowSum scan i s := by
  unfold readSum windowSum
  constructor
  · intro h
    cases h0 : scan.intensities[i]? with
    | none => simp [h0] at h
    | some a =>
      cases h1 : scan.intensities[i + 1]? with
      | none => simp [h0, h1] at h
      | some b =>
        cases h2 : scan.intensities[i + 2]? with
        | none => simp [h0, h1, h2] at h
        | some c =>
          cases h3 : scan.intensities[i + 3]? with
          | none => simp [h0, h1, h2, h3] at h
          | some d =>
            simp only [h0, h1, h2, h3, Except.ok.injEq] at h
            exact ⟨a, b, c, d, rfl, rfl, rfl, rfl, h.symm⟩
  · rintro ⟨a, b, c, d, h0, h1, h2, h3, hs⟩
    simp [h0, h1, h2, h3, hs]

theorem windowSum_unique {scan : LaserScan} {i : Nat} {s t : F32}
    (hs : windowSum scan i s) (ht : windowSum scan i t) : s = t := by
  have h1 := readSum_iff.2 hs
  have h2 := readSum_iff.2 ht
  rw [h1] at h2
  exact Except.ok.inj h2

theorem windowSum_lt {scan : LaserScan} {i : Nat} {s : F32} (h : windowSum scan i s) :
    i + 3 < scan.intensities.length := by
  obtain ⟨_, _, _, d, _, _, _, h3, _⟩ := h
  exact (List.getElem?_eq_some.1 h3).1

theorem windowSum_of_lt (scan : LaserScan) (i : Nat) (h : i + 3 < scan.intensities.length) :
    ∃ s, windowSum scan i s :=
  ⟨_, _, _, _, _, List.getElem?_eq_getElem (by omega), List.getElem?_eq_getElem (by omega),
    List.getElem?_eq_getElem (by omega), List.getElem?_eq_getElem h, rfl⟩

theorem mem_sumReads {i : Nat} {a : Access} (h : a ∈ sumReads i) :
    a.channel = .intensities ∧ i ≤ a.index ∧ a.index ≤ i + 3 := by
  simp only [sumReads, List.mem_cons, List.mem_singleton, List.not_mem_nil, or_false] at h
  rcases h with rfl | rfl | rfl | rfl <;> simp

/-- The state after one pass at `i` from state `st`, for a window of sum `s`. -/
theorem body_spec {scan : LaserScan} {i : Nat} {st st1 : ScanState} {rs : List Access}
    (h : body scan i st = .ok (st1, rs)) :
    (¬ windowPasses scan i ∧ st1 = st) ∨
    (windowPasses scan i ∧ ∃ s, windowSum scan i s ∧
      ((flt st.max s = true ∧ flt 90 s = true ∧ st1 = ⟨s, i⟩) ∨
        (¬ (flt st.max s = true ∧ flt 90 s = true) ∧ st1 = st))) := by
  unfold body at h
  cases ha : anyOutside scan [i, i + 1, i + 2, i + 3] with
  | error e => simp [ha] at h
  | ok p =>
    obtain ⟨b, rs1⟩ := p
    cases b with
    | true =>
      simp only [ha, Except.ok.injEq, Prod.mk.injEq] at h
      left
      obtain ⟨j, hj, hout⟩ := anyOutside_true ha
      refine ⟨?_, h.1.symm⟩
      rintro ⟨v0, v1, v2, v3⟩
      simp only [List.mem_cons, List.mem_singleton, List.not_mem_nil, or_false] at hj
      rcases hj with rfl | rfl | rfl | rfl <;> contradiction
    | false =>
      simp only [ha] at h
      right
      have hv := (anyOutside_false ha).1
      have hval : windowPasses scan i :=
        ⟨hv i (by simp), hv (i + 1) (by simp), hv (i + 2) (by simp), hv (i + 3) (by simp)⟩
      refine ⟨hval, ?_⟩
      cases hsum : readSum scan i with
      | error e => simp [hsum] at h
      | ok s =>
        simp only [hsum] at h
        refine ⟨s, readSum_iff.1 hsum, ?_⟩
        split at h
        · rename_i hc
          simp only [Except.ok.injEq, Prod.mk.injEq] at h
          exact Or.inl ⟨hc.1, hc.2, h.1.symm⟩
        · rename_i hc
          simp only [Except.ok.injEq, Prod.mk.injEq] at h
          exact Or.inr ⟨hc, h.1.symm⟩

theorem body_reads {scan : LaserScan} {i : Nat} {st st1 : ScanState} {rs : List Access}
    (h : body scan i st = .ok (st1, rs)) :
    ∀ a ∈ rs, i ≤ a.index ∧ a.index ≤ i + 3 ∧ a.index < (scan.seq a.channel).length := by
  unfold body at h
  cases ha : anyOutside scan [i, i + 1, i + 2, i + 3] with
  | error e => simp [ha] at h
  | ok p =>
    obtain ⟨b, rs1⟩ := p
    have hr1 : ∀ a ∈ rs1, i ≤ a.index ∧ a.index ≤ i + 3 ∧
        a.index < (scan.seq a.channel).length := by
      intro a ha1
      obtain ⟨hc, hm, hl⟩ := anyOutside_reads ha a ha1
      simp only [List.mem_cons, List.mem_singleton, List.not_mem_nil, or_false] at hm
      rw [hc]
      refine ⟨by omega, by omega, hl⟩
    cases b with
    | true =>
      simp only [ha, Except.ok.injEq, Prod.mk.injEq] at h
      rw [← h.2]
      exact hr1
    | false =>
      simp only [ha] at h
      cases hsum : readSum scan i with
      | error e => simp [hsum] at h
      | ok s =>
        have hlen := windowSum_lt (readSum_iff.1 hsum)
        have hrs : rs = rs1 ++ sumReads i := by
          simp only [hsum] at h
          split at h <;> simp only [Except.ok.injEq, Prod.mk.injEq] at h <;> exact h.2.symm
        intro a ha1
        rw [hrs] at ha1
        rcases List.mem_append.1 ha1 with ha1 | ha1
        · exact hr1 a ha1
        · obtain ⟨hc, h1, h2⟩ := mem_sumReads ha1
          rw [hc]
          refine ⟨h1, h2, ?_⟩
          show a.index < scan.intensities.length
          omega

theorem body_total {scan : LaserScan} {i : Nat} (st : ScanState)
    (hr : i + 3 < scan.ranges.length) (hi : i + 3 < scan.intensities.length) :
    ∃ st1 rs, body scan i st = .ok (st1, rs) := by
  obtain ⟨b, rs1, ha⟩ := anyOutside_total scan [i, i + 1, i + 2, i + 3]
    (by
      intro j hj
      simp only [List.mem_cons, List.mem_singleton, List.not_mem_nil, or_false] at hj
      omega)
  obtain ⟨s, hs⟩ := windowSum_of_lt scan i hi
  have hsum := readSum_iff.2 hs
  unfold body
  cases b with
  | true =>
    simp only [ha]
    exact ⟨_, _, rfl⟩
  | false =>
    simp only [ha, hsum]
    split
    · exact ⟨_, _, rfl⟩
    · exact ⟨_, _, rfl⟩

/-- Whether a pass completes, and what it reads, depends only on the ranges,
the sensor limits and the length of the intensities. -/
theorem body_shape {scan scan2 : LaserScan} (hr : scan2.ranges = scan.ranges)
    (hmin : scan2.range_min = scan.range_min) (hmax : scan2.range_max = scan.range_max)
    (hlen : scan2.intensities.length = scan.intensities.length)
    {i : Nat} {st st1 : ScanState} {rs : List Access} (st' : ScanState)
    (h : body scan i st = .ok (st1, rs)) :
    ∃ st2, body scan2 i st' = .ok (st2, rs) := by
  unfold body at h
  unfold body
  rw [anyOutside_congr hr hmin hmax]
  cases ha : anyOutside scan [i, i + 1, i + 2, i + 3] with
  | error e => simp [ha] at h
  | ok p =>
    obtain ⟨b, rs1⟩ := p
    cases b with
    | true =>
      simp only [ha, Except.ok.injEq, Prod.mk.injEq] at h
      exact ⟨st', by simp only [h.2]⟩
    | false =>
      simp only [ha] at h
      cases hsum : readSum scan i with
      | error e => simp [hsum] at h
      | ok s =>
        have hrs : rs = rs1 ++ sumReads i := by
          simp only [hsum] at h
          split at h <;> simp only [Except.ok.injEq, Prod.mk.injEq] at h <;> exact h.2.symm
        have hl := windowSum_lt (readSum_iff.1 hsum)
        obtain ⟨s2, hs2⟩ := windowSum_of_lt scan2 i (by omega)
        simp only [readSum_iff.2 hs2, hrs]
        split
        · exact ⟨_, rfl⟩
        · exact ⟨_, rfl⟩

theorem inv_init (scan : LaserScan) : Inv scan 0 ⟨.fin 0, 0⟩ :=
  ⟨fun _ _ hj => absurd hj (Nat.not_lt_zero _), Or.inl rfl⟩

/-- In a state of the invariant `max` is not NaN. -/
theorem inv_max_ordered {scan : LaserScan} {i : Nat} {st : ScanState}
    (hinv : Inv scan i st) : fle st.max st.max = true := by
  rcases hinv.2 with h0 | ⟨h1, _⟩
  · rw [h0]
    rfl
  · exact fle_refl_of_flt_left h1

theorem body_inv {scan : LaserScan} {i : Nat} {st st1 : ScanState} {rs : List Access}
    (h : body scan i st = .ok (st1, rs)) (hinv : Inv scan i st) : Inv scan (i + 1) st1 := by
  have hord := inv_max_ordered hinv
  obtain ⟨hmax, hfirst⟩ := hinv
  have hkeep : (st = ⟨.fin 0, 0⟩ ∨
      (flt 90 st.max = true ∧ st.max_i < i + 1 ∧ windowPasses scan st.max_i ∧
        windowSum scan st.max_i st.max ∧
        ∀ j s, j < st.max_i → windowPasses scan j → windowSum scan j s →
          fle st.max s = false)) := by
    rcases hfirst with h0 | ⟨h1, h2, h3, h4, h5⟩
    · exact Or.inl h0
    · exact Or.inr ⟨h1, by omega, h3, h4, h5⟩
  rcases body_spec h with ⟨hnv, rfl⟩ | ⟨hv, s, hs, ⟨h1, h2, rfl⟩ | ⟨hno, rfl⟩⟩
  · refine ⟨?_, hkeep⟩
    intro j t hj hvj hsj ht
    rcases Nat.lt_succ_iff_lt_or_eq.1 hj with hj | rfl
    · exact hmax j t hj hvj hsj ht
    · exact absurd hvj hnv
  · refine ⟨?_, Or.inr ⟨h2, Nat.lt_succ_self i, hv, hs, ?_⟩⟩
    · intro j t hj hvj hsj ht
      rcases Nat.lt_succ_iff_lt_or_eq.1 hj with hj | rfl
      · exact fle_trans (hmax j t hj hvj hsj ht) (fle_of_flt h1)
      · rw [windowSum_unique hsj hs]
        exact fle_refl_of_flt_left h2
    · intro j t hj hvj hsj
      show fle s t = false
      cases hle : fle s t with
      | false => rfl
      | true =>
        have h90 : flt 90 t = true := flt_of_flt_of_fle h2 hle
        have hlt : flt t s = true := flt_of_fle_of_flt (hmax j t hj hvj hsj h90) h1
        rw [not_flt_of_fle hle] at hlt
        cases hlt
  · refine ⟨?_, hkeep⟩
    intro j t hj hvj hsj ht
    rcases Nat.lt_succ_iff_lt_or_eq.1 hj with hj | rfl
    · exact hmax j t hj hvj hsj ht
    · have : t = s := windowSum_unique hsj hs
      subst this
      apply fle_of_not_flt (fle_refl_of_flt_left ht) hord
      cases hlt : flt st1.max t with
      | false => rfl
      | true => exact absurd ⟨hlt, ht⟩ hno

theorem loopFrom_inv {scan : LaserScan} : ∀ (n i : Nat) {st st1 : ScanState}
    {rs : List Access}, loopFrom scan i n st = .ok (st1, rs) → Inv scan i st →
    Inv scan (i + n) st1
  | 0, i, st, st1, rs, h, hinv => by
    simp only [loopFrom, Except.ok.injEq, Prod.mk.injEq] at h
    rw [← h.1]
    exact hinv
  | n + 1, i, st, st1, rs, h, hinv => by
    unfold loopFrom at h
    cases hb : body scan i st with
    | error e => simp [hb] at h
    | ok p =>
      obtain ⟨sa, ra⟩ := p
      simp only [hb] at h
      cases hl : loopFrom scan (i + 1) n sa with
      | error e => simp [hl] at h
      | ok q =>
        obtain ⟨sb, rb⟩ := q
        simp only [hl, Except.ok.injEq, Prod.mk.injEq] at h
        have := loopFrom_inv n (i + 1) hl (body_inv hb hinv)
        rw [← h.1]
        have e : i + (n + 1) = i + 1 + n := by omega
        rw [e]
        exact this

theorem loopFrom_reads {scan : LaserScan} : ∀ (n i : Nat) {st st1 : ScanState}
    {rs : List Access}, loopFrom scan i n st = .ok (st1, rs) →
    ∀ a ∈ rs, i ≤ a.index ∧ a.index < i + n + 3 ∧ a.index < (scan.seq a.channel).length
  | 0, i, st, st1, rs, h => by
    simp only [loopFrom, Except.ok.injEq, Prod.mk.injEq] at h
    rw [← h.2]
    simp
  | n + 1, i, st, st1, rs, h => by
    unfold loopFrom at h
    cases hb : body scan i st with
    | error e => simp [hb] at h
    | ok p =>
      obtain ⟨sa, ra⟩ := p
      simp only [hb] at h
      cases hl : loopFrom scan (i + 1) n sa with
      | error e => simp [hl] at h
      | ok q =>
        obtain ⟨sb, rb⟩ := q
        simp only [hl, Except.ok.injEq, Prod.mk.injEq] at h
        intro a ha
        rw [← h.2] at ha
        rcases List.mem_append.1 ha with ha | ha
        · obtain ⟨h1, h2, h3⟩ := body_reads hb a ha
          exact ⟨h1, by omega, h3⟩
        · obtain ⟨h1, h2, h3⟩ := loopFrom_reads n (i + 1) hl a ha
          exact ⟨by omega, by omega, h3⟩

theorem loopFrom_total (scan : LaserScan) : ∀ (n i : Nat) (st : ScanState),
    (∀ j, i ≤ j → j < i + n →
      j + 3 < scan.ranges.length ∧ j + 3 < scan.intensities.length) →
    ∃ st1 rs, loopFrom scan i n st = .ok (st1, rs)
  | 0, i, st, _ => ⟨st, [], rfl⟩
  | n + 1, i, st, hlen => by
    obtain ⟨sa, ra, hb⟩ := body_total st (hlen i le_rfl (by omega)).1 (hlen i le_rfl (by omega)).2
    obtain ⟨sb, rb, hl⟩ := loopFrom_total scan n (i + 1) sa
      (fun j h1 h2 => hlen j (by omega) (by omega))
    unfold loopFrom
    simp only [hb, hl]
    exact ⟨_, _, rfl⟩

theorem loopFrom_shape (scan scan2 : LaserScan) (hr : scan2.ranges = scan.ranges)
    (hmin : scan2.range_min = scan.range_min) (hmax : scan2.range_max = scan.range_max)
    (hlen : scan2.intensities.length = scan.intensities.length) :
    ∀ (n i : Nat) {st st1 : ScanState} {rs : List Access} (st' : ScanState),
    loopFrom scan i n st = .ok (st1, rs) → ∃ st2, loopFrom scan2 i n st' = .ok (st2, rs)
  | 0, i, st, st1, rs, st', h => by
    simp only [loopFrom, Except.ok.injEq, Prod.mk.injEq] at h
    exact ⟨st', by simp only [loopFrom, h.2]⟩
  | n + 1, i, st, st1, rs, st', h => by
    unfold loopFrom at h
    cases hb : body scan i st with
    | error e => simp [hb] at h
    | ok p =>
      obtain ⟨sa, ra⟩ := p
      simp only [hb] at h
      cases hl : loopFrom scan (i + 1) n sa with
      | error e => simp [hl] at h
      | ok q =>
        obtain ⟨sb, rb⟩ := q
        simp only [hl, Except.ok.injEq, Prod.mk.injEq] at h
        obtain ⟨sa2, hb2⟩ := body_shape hr hmin hmax hlen st' hb
        obtain ⟨sb2, hl2⟩ := loopFrom_shape scan scan2 hr hmin hmax hlen n (i + 1) sa2 hl
        unfold loopFrom
        simp only [hb2, hl2, h.2]
        exact ⟨_, rfl⟩

theorem loopBound_eq {sz bound : Int} (h : loopBound sz = some bound) :
    bound = sz - 4 := by
  unfold loopBound at h
  split at h
  · exact (Option.some.inj h).symm
  · cases h

/-- On a frame with beam count `N` the callback is the loop of `N - 4` passes
from `i = 0`, `max = 0`, `max_i = 0`, followed by the print. -/
theorem poiCallback_eq {scan : LaserScan} {N : Int} (hN : beamCount scan = some N) :
    poiCallback scan =
      match loopFrom scan 0 (N - 4).toNat ⟨.fin 0, 0⟩ with
      | .error e => .error e
      | .ok (st, rs) => .ok ⟨rs, report st⟩ := by
  unfold beamCount at hN
  unfold poiCallback
  cases hs : size scan with
  | none => simp [hs] at hN
  | some sz =>
    simp only [hs] at hN
    cases hb : loopBound sz with
    | none => simp [hb] at hN
    | some bound =>
      simp only [hb, Option.some.injEq] at hN
      subst hN
      have hbd := loopBound_eq hb
      subst hbd
      simp only [hb]

theorem beamCount_of_ok {scan : LaserScan} {out : Outcome}
    (h : poiCallback scan = .ok out) : ∃ N, beamCount scan = some N := by
  unfold poiCallback at h
  unfold beamCount
  cases hs : size scan with
  | none => simp [hs] at h
  | some sz =>
    cases hb : loopBound sz with
    | none => simp [hs, hb] at h
    | some bound => exact ⟨sz, by simp only [hb]⟩

/-- A completed run is a completed loop, and prints from its final state. -/
theorem run_ok {scan : LaserScan} {N : Int} {out : Outcome}
    (hN : beamCount scan = some N) (h : poiCallback scan = .ok out) :
    ∃ st, loopFrom scan 0 (N - 4).toNat ⟨.fin 0, 0⟩ = .ok (st, out.reads) ∧
      out.printed = report st := by
  rw [poiCallback_eq hN] at h
  cases hl : loopFrom scan 0 (N - 4).toNat ⟨.fin 0, 0⟩ with
  | error e => simp [hl] at h
  | ok p =>
    obtain ⟨st, rs⟩ := p
    simp only [hl, Except.ok.injEq] at h
    subst h
    exact ⟨st, rfl, rfl⟩

theorem run_of_loop {scan : LaserScan} {N : Int} {st : ScanState} {rs : List Access}
    (hN : beamCount scan = some N)
    (h : loopFrom scan 0 (N - 4).toNat ⟨.fin 0, 0⟩ = .ok (st, rs)) :
    poiCallback scan = .ok ⟨rs, report st⟩ := by
  rw [poiCallback_eq hN, h]

theorem report_eq_some {st : ScanState} {idx : Nat} {score : F32}
    (h : report st = some (idx, score)) :
    fne st.max (.fin 0) = true ∧ st.max_i = idx ∧ st.max = score := by
  unfold report at h
  split at h
  · rename_i hne
    simp only [Option.some.injEq, Prod.mk.injEq] at h
    exact ⟨hne, h.1, h.2⟩
  · cases h

/-- What the final state of a completed run satisfies when a pair is printed. -/
theorem printed_spec {scan : LaserScan} {N : Int} {out : Outcome} {idx : Nat} {score : F32}
    (hN : beamCount scan = some N) (hrun : poiCallback scan = .ok out)
    (hrep : out.printed = some (idx, score)) :
    flt 90 score = true ∧ idx < (N - 4).toNat ∧ windowPasses scan idx ∧
      windowSum scan idx score ∧
      (∀ j s, j < idx → windowPasses scan j → windowSum scan j s →
        fle score s = false) ∧
      (∀ j s, j < (N - 4).toNat → windowPasses scan j → windowSum scan j s →
        flt 90 s = true → fle s score = true) := by
  obtain ⟨st, hl, hp⟩ := run_ok hN hrun
  rw [hp] at hrep
  obtain ⟨hne, rfl, rfl⟩ := report_eq_some hrep
  have hinv := loopFrom_inv _ _ hl (inv_init scan)
  rw [Nat.zero_add] at hinv
  obtain ⟨hmax, h0 | ⟨h1, h2, h3, h4, h5⟩⟩ := hinv
  · rw [h0] at hne
    cases hne
  · exact ⟨h1, h2, h3, h4, h5, hmax⟩

/-- A completed run prints a pair as soon as a scanned, passing window has a
computed sum above 90, and the printed score is at least that sum. -/
theorem printed_of_qualifying {scan : LaserScan} {N : Int} {out : Outcome} {j : Nat} {s : F32}
    (hN : beamCount scan = some N) (hrun : poiCallback scan = .ok out)
    (hj : j < (N - 4).toNat) (hv : windowPasses scan j) (hs : windowSum scan j s)
    (h90 : flt 90 s = true) :
    ∃ idx score, out.printed = some (idx, score) ∧ fle s score = true := by
  obtain ⟨st, hl, hp⟩ := run_ok hN hrun
  have hinv := loopFrom_inv _ _ hl (inv_init scan)
  rw [Nat.zero_add] at hinv
  have hle := hinv.1 j s hj hv hs h90
  have hne : fne st.max (.fin 0) = true := fne_zero_of_gt (flt_of_flt_of_fle h90 hle)
  exact ⟨st.max_i, st.max, by rw [hp]; simp [report, hne], hle⟩

/-- A run completes, with every read in bounds, when both sequences hold at
least `N - 1` entries. -/
theorem run_total {scan : LaserScan} {N : Int} (hN : beamCount scan = some N)
    (hr : N - 1 ≤ scan.ranges.length) (hi : N - 1 ≤ scan.intensities.length) :
    ∃ out, poiCallback scan = .ok out ∧
      ∀ a ∈ out.reads, a.index < (scan.seq a.channel).length := by
  obtain ⟨st, rs, hl⟩ := loopFrom_total scan (N - 4).toNat 0 ⟨.fin 0, 0⟩
    (by
      intro j _ hj
      have : (j : Int) < N - 4 := by omega
      constructor <;> omega)
  refine ⟨⟨rs, report st⟩, run_of_loop hN hl, ?_⟩
  intro a ha
  exact (loopFrom_reads _ _ hl a ha).2.2

/-- A run that prints `p` completed with some list of reads. -/
theorem run_of_printedBy {scan : LaserScan} {p : Option (Nat × F32)}
    (h : printedBy scan = some p) : ∃ rs, poiCallback scan = .ok ⟨rs, p⟩ := by
  unfold printedBy at h
  cases hr : poiCallback scan with
  | error e => simp [hr] at h
  | ok out =>
    simp only [hr, Option.some.injEq] at h
    exact ⟨out.reads, by rw [← h]⟩

theorem example1_beamCount : beamCount example1 = some 8 := by decide

theorem example1_run : ∃ rs, poiCallback example1 = .ok ⟨rs, some (2, 100)⟩ :=
  run_of_printedBy (by decide)

theorem example2_run : ∃ rs, poiCallback example2 = .ok ⟨rs, none⟩ :=
  run_of_printedBy (by decide)

theorem brightOutlier_run : ∃ rs, poiCallback brightOutlier = .ok ⟨rs, some (3, 100)⟩ :=
  run_of_printedBy (by decide)

theorem fourBeams_run : poiCallback fourBeams = .ok ⟨[], none⟩ := by decide

theorem oneShort_run : ∃ rs, poiCallback oneShort = .ok ⟨rs, some (0, 400)⟩ :=
  run_of_printedBy (by decide)

theorem negativeIncrement_beamCount : beamCount negativeIncrement = some 5 := by decide

theorem negativeIncrement_run :
    ∃ rs, poiCallback negativeIncrement = .ok ⟨rs, some (0, 400)⟩ :=
  run_of_printedBy (by decide)

/-- C1: the start index `N - 4` is not evaluated.  On the four-beam frame
`fourBeams` (`N = 4`, both sequences hold four entries, window 0 has all ranges
in bounds and intensity sum 400 > 90, computed without rounding) the loop
`i < size - 4` makes no pass: `poiCallback` reads nothing and prints nothing,
where the specification has index 0 reported. -/
theorem last_window_not_evaluated :
    beamCount fourBeams = some 4 ∧
    (4 : Int) ≤ fourBeams.ranges.length ∧ (4 : Int) ≤ fourBeams.intensities.length ∧
    windowValid fourBeams 0 ∧ windowSum fourBeams 0 400 ∧
    windowExact fourBeams 0 (400 * (F32.unit : Int)) ∧ flt 90 400 = true ∧
    poiCallback fourBeams = .ok ⟨[], none⟩ := by
  refine ⟨by decide, by decide, by decide, ?_, ?_, ?_, by decide, fourBeams_run⟩
  · exact ⟨⟨5, by decide, by decide, by decide⟩, ⟨5, by decide, by decide, by decide⟩,
      ⟨5, by decide, by decide, by decide⟩, ⟨5, by decide, by decide, by decide⟩⟩
  · exact ⟨100, 100, 100, 100, by decide, by decide, by decide, by decide, by decide⟩
  · exact ⟨100 * (F32.unit : Int), 100 * (F32.unit : Int), 100 * (F32.unit : Int),
      100 * (F32.unit : Int), by decide, by decide, by decide, by decide, by decide⟩

/-- C2, as stated, fails: on `roundedScore` (intensities `2^24, 1, 1, 1, 0`,
each a float) the exact sum of window 0 is `2^24 + 3`, but each addition
rounds back to `2^24` and `poiCallback` prints the score `2^24`. -/
theorem printed_score_is_not_exact_sum :
    roundedScore.wellFormed = true ∧
    windowExact roundedScore 0 (16777219 * (F32.unit : Int)) ∧
    (∃ rs, poiCallback roundedScore = .ok ⟨rs, some (0, .fin (16777216 * (F32.unit : Int)))⟩) ∧
    (16777216 * (F32.unit : Int)) ≠ 16777219 * (F32.unit : Int) := by
  refine ⟨by decide, ?_, run_of_printedBy (by decide), by decide⟩
  exact ⟨16777216 * (F32.unit : Int), F32.unit, F32.unit, F32.unit,
    by decide, by decide, by decide, by decide, by decide⟩

/-- C2 (amended): whenever `poiCallback` prints `(idx, score)` on a frame of
beam count `N`, then `0 ≤ idx ≤ N - 4`, `score` is the float sum
`((i0 + i1) + i2) + i3` of the four intensities from `idx`, each addition
rounded, and `score > 90`. -/
theorem printed_pair_is_a_scanned_window (scan : LaserScan) (N : Int) (out : Outcome)
    (idx : Nat) (score : F32) (hN : beamCount scan = some N)
    (hrun : poiCallback scan = .ok out) (hrep : out.printed = some (idx, score)) :
    (0 : Int) ≤ idx ∧ (idx : Int) ≤ N - 4 ∧ windowSum scan idx score ∧
      flt 90 score = true := by
  obtain ⟨h90, hidx, _, hsum, _, _⟩ := printed_spec hN hrun hrep
  refine ⟨Int.ofNat_nonneg idx, ?_, hsum, h90⟩
  omega

/-- The frame `brightOutlier` (`N = 9`) prints `(3, 100)`: index 3 lies in
`0 .. 5` and 100 is the sum 40 + 20 + 30 + 10. -/
theorem printed_pair_is_a_scanned_window_witness :
    ∃ out, poiCallback brightOutlier = .ok out ∧ out.printed = some (3, 100) ∧
      ((0 : Int) ≤ (3 : Nat) ∧ ((3 : Nat) : Int) ≤ 9 - 4 ∧
        windowSum brightOutlier 3 100 ∧ flt 90 100 = true) := by
  obtain ⟨rs, h⟩ := brightOutlier_run
  exact ⟨_, h, rfl, printed_pair_is_a_scanned_window brightOutlier 9 _ 3 100
    (by decide) h rfl⟩

/-- C3: a NaN range is not filtered.  On `nanRange` beam 0 has range NaN,
which is not inside `[range_min, range_max]`; both comparisons of line 51 are
false for it, window 0 passes the test, and `poiCallback` prints `(0, 400)`. -/
theorem nan_range_is_printed :
    nanRange.ranges[0]? = some .nan ∧ ¬ beamInRange nanRange 0 ∧
    ¬ windowValid nanRange 0 ∧ windowPasses nanRange 0 ∧
    ∃ rs, poiCallback nanRange = .ok ⟨rs, some (0, 400)⟩ := by
  have hb : ¬ beamInRange nanRange 0 := by
    rintro ⟨r, hr, h1, _⟩
    have : r = .nan := by
      have h0 : nanRange.ranges[0]? = some .nan := by decide
      rw [h0] at hr
      exact (Option.some.inj hr).symm
    subst this
    revert h1
    decide
  refine ⟨by decide, hb, fun h => hb h.1, ?_, run_of_printedBy (by decide)⟩
  exact ⟨⟨.nan, by decide, by decide, by decide⟩, ⟨5, by decide, by decide, by decide⟩,
    ⟨5, by decide, by decide, by decide⟩, ⟨5, by decide, by decide, by decide⟩⟩

/-- Every beam of a printed window passes the test of lines 51-54: its range
is neither below `range_min` nor above `range_max`. -/
theorem printed_window_passes {scan : LaserScan} {out : Outcome} {idx : Nat} {score : F32}
    (hrun : poiCallback scan = .ok out) (hrep : out.printed = some (idx, score)) :
    windowPasses scan idx := by
  obtain ⟨N, hN⟩ := beamCount_of_ok hrun
  exact (printed_spec hN hrun hrep).2.2.1

/-- When neither sensor limit is NaN, a beam that passes the test with a range
that is not NaN is inside `[range_min, range_max]`. -/
theorem beamInRange_of_passes {scan : LaserScan} {j : Nat}
    (hmin : fle scan.range_min scan.range_min = true)
    (hmax : fle scan.range_max scan.range_max = true)
    (hr : ∀ r, scan.ranges[j]? = some r → fle r r = true)
    (h : beamPasses scan j) : beamInRange scan j := by
  obtain ⟨r, hj, h1, h2⟩ := h
  exact ⟨r, hj, fle_of_not_flt hmin (hr r hj) h1, fle_of_not_flt (hr r hj) hmax h2⟩

/-- Rounding can break a tie of exact sums: on `rotatedTie` the windows 0 and
1 hold the same four floats, so their exact sums agree, but the computed sums
differ in the last bit and `poiCallback` prints index 1, the later window. -/
theorem equal_exact_sums_later_window_printed :
    rotatedTie.wellFormed = true ∧
    (∃ S, windowExact rotatedTie 0 S ∧ windowExact rotatedTie 1 S) ∧
    windowSum rotatedTie 0 (F32.dyadic 3712051 134) ∧
    windowSum rotatedTie 1 (F32.dyadic 14848205 132) ∧
    ∃ rs, poiCallback rotatedTie = .ok ⟨rs, some (1, F32.dyadic 14848205 132)⟩ := by
  refine ⟨by decide, ⟨_, ⟨_, _, _, _, rfl, rfl, rfl, rfl, rfl⟩,
    ⟨_, _, _, _, rfl, rfl, rfl, rfl, by decide⟩⟩, ?_, ?_, run_of_printedBy (by decide)⟩
  · exact ⟨_, _, _, _, rfl, rfl, rfl, rfl, by decide⟩
  · exact ⟨_, _, _, _, rfl, rfl, rfl, rfl, by decide⟩

/-- C5: on a frame whose beam count `N` is below 4 (zero and negative counts
included) `poiCallback` makes no pass of the loop: it reads no element of
`ranges` or `intensities` and prints nothing, whatever the sequences hold. -/
theorem fewer_than_four_beams (scan : LaserScan) (N : Int) (hN : beamCount scan = some N)
    (hlt : N < 4) : poiCallback scan = .ok ⟨[], none⟩ := by
  have h0 : (N - 4).toNat = 0 := by omega
  rw [poiCallback_eq hN, h0]
  rfl

/-- Example 3 (`N = 3`) and a frame with `N = -2` read nothing and print
nothing. -/
theorem fewer_than_four_beams_witness :
    beamCount example3 = some 3 ∧ poiCallback example3 = .ok ⟨[], none⟩ ∧
    beamCount reversedAngles = some (-2) ∧ poiCallback reversedAngles = .ok ⟨[], none⟩ :=
  ⟨by decide, fewer_than_four_beams example3 3 (by decide) (by decide),
    by decide, fewer_than_four_beams reversedAngles (-2) (by decide) (by decide)⟩

/-- C6, as stated, fails: on `roundsAbove90` (`N = 5`, every intensity a
float) the exact sum of window 0 is exactly 90 and that of window 1 is below
26, so no window exceeds 90; the computed sum of window 0 rounds up twice to
`90 + 2^-17`, and `poiCallback` prints it at index 0. -/
theorem rounded_sum_exceeds_threshold :
    beamCount roundsAbove90 = some 5 ∧
    roundsAbove90.wellFormed = true ∧
    windowExact roundsAbove90 0 (90 * (F32.unit : Int)) ∧
    (∃ S, windowExact roundsAbove90 1 S ∧ S ≤ 90 * (F32.unit : Int)) ∧
    ∃ rs, poiCallback roundsAbove90 =
      .ok ⟨rs, some (0, F32.dyadic 11796481 132)⟩ := by
  refine ⟨by decide, by decide, ?_, ⟨_, ⟨_, _, _, _, rfl, rfl, rfl, rfl, rfl⟩, by decide⟩,
    run_of_printedBy (by decide)⟩
  exact ⟨_, _, _, _, rfl, rfl, rfl, rfl, by decide⟩

/-- C6 (amended): on a frame of beam count `N` in which no window
`0 ≤ i ≤ N - 4` has a computed sum above 90, no run prints a pair; and when
both sequences hold at least `N` entries the run completes and prints nothing.
A computed sum of exactly 90 does not qualify. -/
theorem no_window_above_threshold (scan : LaserScan) (N : Int)
    (hN : beamCount scan = some N)
    (hall : ∀ (i : Nat) (s : F32), (i : Int) ≤ N - 4 → windowSum scan i s →
      flt 90 s = false) :
    (∀ out, poiCallback scan = .ok out → out.printed = none) ∧
    (N ≤ scan.ranges.length → N ≤ scan.intensities.length →
      ∃ rs, poiCallback scan = .ok ⟨rs, none⟩) := by
  have hnone : ∀ out, poiCallback scan = .ok out → out.printed = none := by
    intro out hrun
    cases hp : out.printed with
    | none => rfl
    | some p =>
      obtain ⟨idx, score⟩ := p
      obtain ⟨h90, hidx, _, hsum, _, _⟩ := printed_spec hN hrun hp
      have := hall idx score (by omega) hsum
      rw [h90] at this
      cases this
  refine ⟨hnone, ?_⟩
  intro hr hi
  obtain ⟨out, hrun, _⟩ := run_total hN (by omega) (by omega)
  refine ⟨out.reads, ?_⟩
  rw [hrun, ← hnone out hrun]

/-- On `exactly90` window 1 sums to exactly 90, no window exceeds 90, and
nothing is printed. -/
theorem no_window_above_threshold_witness :
    windowSum exactly90 1 90 ∧ ∃ rs, poiCallback exactly90 = .ok ⟨rs, none⟩ := by
  refine ⟨?_, (no_window_above_threshold exactly90 8 (by decide) ?_).2
    (by decide) (by decide)⟩
  · exact ⟨0, 30, 40, 20, by decide, by decide, by decide, by decide, by decide⟩
  · rintro i s hi ⟨a, b, c, d, h0, h1, h2, h3, rfl⟩
    have hlt : i < 5 := by omega
    interval_cases i <;> simp [exactly90, frame] at h0 h1 h2 h3 <;>
      subst h0 h1 h2 h3 <;> decide

theorem roundDiv_succ_le (n b : Nat) (hb : 0 < b) : roundDiv n b ≤ roundDiv (n + 1) b := by
  have hn : b * (n / b) + n % b = n := Nat.div_add_mod n b
  have hr : n % b < b := Nat.mod_lt n hb
  by_cases hlast : n % b + 1 < b
  · have hq : (n + 1) / b = n / b := by
      have : n + 1 = b * (n / b) + (n % b + 1) := by omega
      rw [this, Nat.mul_add_div hb, Nat.div_eq_of_lt hlast]
      rfl
    have hm : (n + 1) % b = n % b + 1 := by
      have : n + 1 = b * (n / b) + (n % b + 1) := by omega
      rw [this, Nat.mul_add_mod, Nat.mod_eq_of_lt hlast]
    unfold roundDiv
    rw [hq, hm]
    split_ifs <;> omega
  · have hq : (n + 1) / b = n / b + 1 := by
      have : n + 1 = b * (n / b + 1) + 0 := by
        rw [Nat.mul_add, Nat.mul_one]
        omega
      rw [this, Nat.mul_add_div hb]
      simp
    unfold roundDiv
    rw [hq]
    split_ifs <;> omega

theorem roundDiv_mono {n m b : Nat} (hb : 0 < b) (h : n ≤ m) :
    roundDiv n b ≤ roundDiv m b := by
  induction m, h using Nat.le_induction with
  | base => exact le_rfl
  | succ m _ ih => exact le_trans ih (roundDiv_succ_le m b hb)

theorem roundDiv_mul (c b : Nat) (hb : 0 < b) : roundDiv (c * b) b = c := by
  unfold roundDiv
  rw [Nat.mul_mod_left, Nat.mul_div_cancel c hb]
  rw [if_neg]
  omega

/-- What `excess` computes: a magnitude `q` has fewer than `24 + sh` bits, and
exactly that many when `sh` is not zero. -/
theorem excess_spec : ∀ (f q : Nat), q ≤ f →
    q < 2 ^ (24 + excess f q) ∧ (0 < excess f q → 2 ^ (23 + excess f q) ≤ q)
  | 0, q, h => by
    have : q = 0 := by omega
    subst this
    simp [excess]
  | f + 1, q, h => by
    unfold excess
    split
    · rename_i hlt
      exact ⟨by simpa using hlt, fun h0 => absurd h0 (lt_irrefl 0)⟩
    · rename_i hge
      have hge2 : 2 ^ 24 ≤ q := not_lt.1 hge
      have h16 : (2 : Nat) ^ 24 = 16777216 := by norm_num
      obtain ⟨ih1, ih2⟩ := excess_spec f (q / 2) (by omega)
      have e1 : 2 ^ (24 + (excess f (q / 2) + 1)) = 2 * 2 ^ (24 + excess f (q / 2)) := by
        rw [← Nat.add_assoc, Nat.pow_succ, Nat.mul_comm]
      have e2 : 2 ^ (23 + (excess f (q / 2) + 1)) = 2 ^ (24 + excess f (q / 2)) := by
        congr 1
        omega
      refine ⟨?_, fun _ => ?_⟩
      · rw [e1]
        omega
      · rw [e2]
        by_cases h0 : excess f (q / 2) = 0
        · rw [h0]
          simpa using hge2
        · have := ih2 (Nat.pos_of_ne_zero h0)
          have e3 : 2 ^ (24 + excess f (q / 2)) = 2 * 2 ^ (23 + excess f (q / 2)) := by
            have : 24 + excess f (q / 2) = (23 + excess f (q / 2)) + 1 := by omega
            rw [this, Nat.pow_succ, Nat.mul_comm]
          rw [e3]
          omega

theorem excess_mono {n m : Nat} (h : n ≤ m) : excess n n ≤ excess m m := by
  by_contra hlt
  have hlt2 : excess m m < excess n n := not_le.1 hlt
  obtain ⟨_, hn⟩ := excess_spec n n le_rfl
  obtain ⟨hm, _⟩ := excess_spec m m le_rfl
  have h1 := hn (by omega)
  have h2 : 2 ^ (24 + excess m m) ≤ 2 ^ (23 + excess n n) :=
    Nat.pow_le_pow_right (by norm_num) (by omega)
  omega

/-- Rounding a magnitude of whole units to 24 significant bits. -/
theorem roundMag_one (n : Nat) :
    roundMag n 1 = roundDiv n (2 ^ excess n n) * 2 ^ excess n n := by
  unfold roundMag
  rw [Nat.div_one, Nat.one_mul]

/-- Rounding to 24 significant bits is monotone. -/
theorem roundMag_mono {n m : Nat} (h : n ≤ m) : roundMag n 1 ≤ roundMag m 1 := by
  rw [roundMag_one, roundMag_one]
  have hsh := excess_mono h
  have hpn : 0 < 2 ^ excess n n := Nat.pow_pos (by norm_num)
  have hpm : 0 < 2 ^ excess m m := Nat.pow_pos (by norm_num)
  rcases Nat.lt_or_ge (excess n n) (excess m m) with hlt | hge
  · obtain ⟨hn, _⟩ := excess_spec n n le_rfl
    obtain ⟨_, hm⟩ := excess_spec m m le_rfl
    have hm2 := hm (by omega)
    have e1 : 2 ^ (24 + excess n n) = 2 ^ 24 * 2 ^ excess n n := Nat.pow_add 2 24 _
    have e2 : 2 ^ (23 + excess m m) = 2 ^ 23 * 2 ^ excess m m := Nat.pow_add 2 23 _
    have s1 : roundDiv n (2 ^ excess n n) ≤ 2 ^ 24 := by
      have := roundDiv_mono hpn (le_of_lt hn)
      rw [e1, roundDiv_mul _ _ hpn] at this
      exact this
    have s2 : 2 ^ 23 ≤ roundDiv m (2 ^ excess m m) := by
      have := roundDiv_mono hpm hm2
      rw [e2, roundDiv_mul _ _ hpm] at this
      exact this
    calc roundDiv n (2 ^ excess n n) * 2 ^ excess n n
        ≤ 2 ^ 24 * 2 ^ excess n n := Nat.mul_le_mul_right _ s1
      _ = 2 ^ (24 + excess n n) := e1.symm
      _ ≤ 2 ^ (23 + excess m m) := Nat.pow_le_pow_right (by norm_num) (by omega)
      _ = 2 ^ 23 * 2 ^ excess m m := e2
      _ ≤ roundDiv m (2 ^ excess m m) * 2 ^ excess m m := Nat.mul_le_mul_right _ s2
  · have heq : excess n n = excess m m := le_antisymm hsh hge
    rw [heq]
    exact Nat.mul_le_mul_right _ (roundDiv_mono hpm h)

/-- A rounded value is never NaN. -/
theorem round32_ordered (neg : Bool) (n b : Nat) :
    fle (round32 neg n b) (round32 neg n b) = true := by
  unfold round32
  split_ifs <;> simp [fle]

/-- The float sum of two finite values is monotone in their exact sum. -/
theorem round32_neg (n b : Nat) :
    round32 true n b =
      if roundMag n b < F32.huge then .fin (-(roundMag n b : Int)) else .ninf := by
  simp [round32]

theorem round32_pos (n b : Nat) :
    round32 false n b =
      if roundMag n b < F32.huge then .fin (roundMag n b : Int) else .pinf := by
  simp [round32]

theorem round32_sum_mono {s t : Int} (h : s ≤ t) :
    fle (round32 (decide (s < 0)) s.natAbs 1) (round32 (decide (t < 0)) t.natAbs 1) =
      true := by
  rcases Int.lt_or_le s 0 with hs | hs
  · rw [decide_eq_true hs, round32_neg]
    rcases Int.lt_or_le t 0 with ht | ht
    · rw [decide_eq_true ht, round32_neg]
      have hm : roundMag t.natAbs 1 ≤ roundMag s.natAbs 1 := roundMag_mono (by omega)
      split_ifs with h1 h2 h2
      · simp only [fle, decide_eq_true_eq]
        omega
      · omega
      · rfl
      · rfl
    · rw [decide_eq_false (not_lt.2 ht), round32_pos]
      split_ifs with h1 h2 h2
      · simp only [fle, decide_eq_true_eq]
        omega
      · rfl
      · rfl
      · rfl
  · have ht : 0 ≤ t := le_trans hs h
    rw [decide_eq_false (not_lt.2 hs), decide_eq_false (not_lt.2 ht), round32_pos,
      round32_pos]
    have hm : roundMag s.natAbs 1 ≤ roundMag t.natAbs 1 := roundMag_mono (by omega)
    split_ifs with h1 h2 h2
    · simp only [fle, decide_eq_true_eq]
      omega
    · rfl
    · omega
    · rfl

theorem fadd_comm (a b : F32) : fadd a b = fadd b a := by
  cases a <;> cases b <;> simp [fadd, Int.add_comm]

/-- A sum above `-inf` has both operands above `-inf`. -/
theorem above_of_fadd {x y : F32} (h : flt .ninf (fadd x y) = true) :
    flt .ninf x = true ∧ flt .ninf y = true := by
  cases x <;> cases y <;> simp_all [fadd, flt]

theorem above_of_fle {x v : F32} (hx : flt .ninf x = true) (h : fle x v = true) :
    flt .ninf v = true := by
  cases x <;> cases v <;> simp_all [flt, fle]

theorem ordered_of_above {x : F32} (hx : flt .ninf x = true) : fle x x = true := by
  cases x <;> simp_all [flt, fle]

/-- Float addition is monotone in its left operand, away from `-inf`. -/
theorem fadd_mono_left {x v y : F32} (hxv : fle x v = true) (hx : flt .ninf x = true)
    (hy : flt .ninf y = true) : fle (fadd x y) (fadd v y) = true := by
  cases x with
  | fin a =>
    cases v with
    | fin b =>
      cases y with
      | fin c =>
        have hab : a ≤ b := by simpa [fle] using hxv
        exact round32_sum_mono (by omega)
      | pinf => rfl
      | ninf => simp [flt] at hy
      | nan => simp [flt] at hy
    | pinf =>
      cases y with
      | fin c =>
        show fle (round32 _ _ _) .pinf = true
        unfold round32
        split_ifs <;> simp [fle]
      | pinf => rfl
      | ninf => simp [flt] at hy
      | nan => simp [flt] at hy
    | ninf => simp [fle] at hxv
    | nan => simp [fle] at hxv
  | pinf =>
    cases v <;> cases y <;> simp_all [flt, fle, fadd]
  | ninf => simp [flt] at hx
  | nan => simp [flt] at hx

/-- Float addition is monotone in both operands, away from `-inf`. -/
theorem fadd_mono {x v y w : F32} (hxv : fle x v = true) (hyw : fle y w = true)
    (hx : flt .ninf x = true) (hy : flt .ninf y = true) :
    fle (fadd x y) (fadd v w) = true := by
  have h1 := fadd_mono_left hxv hx hy
  have h2 : fle (fadd v y) (fadd v w) = true := by
    rw [fadd_comm v y, fadd_comm v w]
    exact fadd_mono_left hyw hy (above_of_fle hx hxv)
  exact fle_trans h1 h2

theorem above_of_gt_ninety {s : F32} (h : flt 90 s = true) : flt .ninf s = true :=
  flt_trans (by decide) h

/-- The sum of lines 57-60 is monotone in each intensity, when the sum is
above `-inf`. -/
theorem sum4_mono {a b c d a2 b2 c2 d2 : F32} (h : flt .ninf (sum4 a b c d) = true)
    (ha : fle a a2 = true) (hb : fle b b2 = true) (hc : fle c c2 = true)
    (hd : fle d d2 = true) : fle (sum4 a b c d) (sum4 a2 b2 c2 d2) = true := by
  unfold sum4 at *
  obtain ⟨h3, hd0⟩ := above_of_fadd h
  obtain ⟨h2, hc0⟩ := above_of_fadd h3
  obtain ⟨ha0, hb0⟩ := above_of_fadd h2
  exact fadd_mono (fadd_mono (fadd_mono ha hb ha0 hb0) hc h2 hc0) hd h3 hd0

/-- The operands of a sum above `-inf` are not NaN. -/
theorem sum4_ordered {a b c d : F32} (h : flt .ninf (sum4 a b c d) = true) :
    fle a a = true ∧ fle b b = true ∧ fle c c = true ∧ fle d d = true := by
  unfold sum4 at h
  obtain ⟨h3, hd0⟩ := above_of_fadd h
  obtain ⟨h2, hc0⟩ := above_of_fadd h3
  obtain ⟨ha0, hb0⟩ := above_of_fadd h2
  exact ⟨ordered_of_above ha0, ordered_of_above hb0, ordered_of_above hc0,
    ordered_of_above hd0⟩

/-- The computed sum of a window after one of its four intensities is raised:
it does not decrease. -/
theorem windowSum_raise {scan : LaserScan} {idx k : Nat} {score x v : F32}
    (hs : windowSum scan idx score) (habove : flt .ninf score = true)
    (hk1 : idx ≤ k) (hk2 : k ≤ idx + 3)
    (hx : scan.intensities[k]? = some x) (hv : flt x v = true) :
    ∃ t, windowSum { scan with intensities := scan.intensities.set k v } idx t ∧
      fle score t = true := by
  obtain ⟨a, b, c, d, h0, h1, h2, h3, rfl⟩ := hs
  obtain ⟨oa, ob, oc, od⟩ := sum4_ordered habove
  have hle := fle_of_flt hv
  have hlen : k < scan.intensities.length := (List.getElem?_eq_some.1 hx).1
  have hcase : k = idx ∨ k = idx + 1 ∨ k = idx + 2 ∨ k = idx + 3 := by omega
  rcases hcase with rfl | rfl | rfl | rfl
  · rw [h0] at hx
    cases hx
    refine ⟨sum4 v b c d, ⟨v, b, c, d, List.getElem?_set_self hlen, ?_, ?_, ?_, rfl⟩,
      sum4_mono habove hle ob oc od⟩
    · rw [List.getElem?_set_ne (by omega)]; exact h1
    · rw [List.getElem?_set_ne (by omega)]; exact h2
    · rw [List.getElem?_set_ne (by omega)]; exact h3
  · rw [h1] at hx
    cases hx
    refine ⟨sum4 a v c d, ⟨a, v, c, d, ?_, List.getElem?_set_self hlen, ?_, ?_, rfl⟩,
      sum4_mono habove oa hle oc od⟩
    · rw [List.getElem?_set_ne (by omega)]; exact h0
    · rw [List.getElem?_set_ne (by omega)]; exact h2
    · rw [List.getElem?_set_ne (by omega)]; exact h3
  · rw [h2] at hx
    cases hx
    refine ⟨sum4 a b v d, ⟨a, b, v, d, ?_, ?_, List.getElem?_set_self hlen, ?_, rfl⟩,
      sum4_mono habove oa ob hle od⟩
    · rw [List.getElem?_set_ne (by omega)]; exact h0
    · rw [List.getElem?_set_ne (by omega)]; exact h1
    · rw [List.getElem?_set_ne (by omega)]; exact h3
  · rw [h3] at hx
    cases hx
    refine ⟨sum4 a b c v, ⟨a, b, c, v, ?_, ?_, ?_, List.getElem?_set_self hlen, rfl⟩,
      sum4_mono habove oa ob oc hle⟩
    · rw [List.getElem?_set_ne (by omega)]; exact h0
    · rw [List.getElem?_set_ne (by omega)]; exact h1
    · rw [List.getElem?_set_ne (by omega)]; exact h2

/-- C7, as stated, fails: `quarters` prints `(0, 100)`; with `intensities[0]`
raised from 25 to the next float `25 + 2^-19` the exact sum of window 0 is
`100 + 2^-19`, but the first addition rounds back to 50 and `poiCallback`
still prints the score 100, below the new sum of the winning window. -/
theorem raised_sum_not_reached :
    (∃ rs, poiCallback quarters = .ok ⟨rs, some (0, 100)⟩) ∧
    quarters.intensities[0]? = some 25 ∧ flt 25 (F32.dyadic 13107201 130) = true ∧
    F32.isFloat (F32.dyadic 13107201 130) = true ∧
    windowExact
      { quarters with intensities := quarters.intensities.set 0 (F32.dyadic 13107201 130) }
      0 (100 * (F32.unit : Int) + 2 ^ 130) ∧
    (∃ rs, poiCallback
      { quarters with intensities := quarters.intensities.set 0 (F32.dyadic 13107201 130) } =
        .ok ⟨rs, some (0, .fin (100 * (F32.unit : Int)))⟩) ∧
    100 * (F32.unit : Int) < 100 * (F32.unit : Int) + 2 ^ 130 := by
  refine ⟨run_of_printedBy (by decide), by decide, by decide, by decide, ?_,
    run_of_printedBy (by decide), by decide⟩
  exact ⟨_, _, _, _, rfl, rfl, rfl, rfl, by decide⟩

/-- C7 (amended): monotonicity of the computed score.  If a run prints
`(idx, score)` and the intensity at a position `k` of the winning window
`idx .. idx+3` is raised from `x` to a strictly larger `v`, ranges and scalars
unchanged, then the run on the new frame completes and prints some
`(idx2, score2)` with `score2 ≥ score`, and `score2` is at least the new
computed sum `t` of window `idx`, which is itself at least `score`. -/
theorem raising_winner_intensity (scan : LaserScan) (out : Outcome) (idx : Nat)
    (score : F32) (k : Nat) (x v : F32)
    (hrun : poiCallback scan = .ok out) (hrep : out.printed = some (idx, score))
    (hk1 : idx ≤ k) (hk2 : k ≤ idx + 3)
    (hx : scan.intensities[k]? = some x) (hv : flt x v = true) :
    ∃ out2 idx2 score2 t,
      poiCallback { scan with intensities := scan.intensities.set k v } = .ok out2 ∧
      out2.printed = some (idx2, score2) ∧ fle score score2 = true ∧
      windowSum { scan with intensities := scan.intensities.set k v } idx t ∧
      fle score t = true ∧ fle t score2 = true := by
  obtain ⟨N, hN⟩ := beamCount_of_ok hrun
  have hN2 : beamCount { scan with intensities := scan.intensities.set k v } = some N := hN
  obtain ⟨h90, hidx, hpass, hsum, _, _⟩ := printed_spec hN hrun hrep
  obtain ⟨st, hl, _⟩ := run_ok hN hrun
  obtain ⟨st2, hl2⟩ := loopFrom_shape scan
    { scan with intensities := scan.intensities.set k v } rfl rfl rfl
    (List.length_set ..) _ _ ⟨.fin 0, 0⟩ hl
  have hrun2 := run_of_loop hN2 hl2
  obtain ⟨t, hsum2, hle⟩ := windowSum_raise hsum (above_of_gt_ninety h90) hk1 hk2 hx hv
  have hpass2 : windowPasses { scan with intensities := scan.intensities.set k v } idx :=
    hpass
  obtain ⟨idx2, score2, hp2, hle2⟩ :=
    printed_of_qualifying hN2 hrun2 hidx hpass2 hsum2 (flt_of_flt_of_fle h90 hle)
  exact ⟨_, idx2, score2, t, hrun2, hp2, fle_trans hle hle2, hsum2, hle, hle2⟩

/-- Example 1 prints `(2, 100)`; with intensity 2 raised from 30 to 35 the run
prints a score of at least 100. -/
theorem raising_winner_intensity_witness :
    ∃ out2 idx2 score2 t,
      poiCallback { example1 with intensities := example1.intensities.set 2 35 } = .ok out2 ∧
      out2.printed = some (idx2, score2) ∧ fle 100 score2 = true ∧
      windowSum { example1 with intensities := example1.intensities.set 2 35 } 2 t ∧
      fle 100 t = true ∧ fle t score2 = true := by
  obtain ⟨rs, h⟩ := example1_run
  exact raising_winner_intensity example1 _ 2 100 2 30 35 h rfl (by decide) (by decide)
    (by decide) (by decide)

/-- C8, as stated, fails: on `negativeIncrement` (`angle_increment = -1`,
five steps, five beams in range of intensity 100) `poiCallback` raises nothing
and prints the window `(0, 400)`. -/
theorem negative_increment_prints_window :
    fle negativeIncrement.angle_increment 0 = true ∧
    beamCount negativeIncrement = some 5 ∧
    ∃ rs, poiCallback negativeIncrement = .ok ⟨rs, some (0, 400)⟩ :=
  ⟨by decide, negativeIncrement_beamCount, negativeIncrement_run⟩


/-- A frame one entry short of its beam count is scanned without any error:
`oneShort` has beam count 6 and five entries, and prints `(0, 400)`. -/
theorem short_frame_prints_window :
    beamCount oneShort = some 6 ∧
    (oneShort.ranges.length : Int) < 6 ∧ (oneShort.intensities.length : Int) < 6 ∧
    ∃ rs, poiCallback oneShort = .ok ⟨rs, some (0, 400)⟩ :=
  ⟨by decide, by decide, by decide, oneShort_run⟩

/-- With empty sequences the first pass already reads `ranges[0]` past the
end. -/
theorem emptySequences_run :
    poiCallback emptySequences = .error (.readPastEnd ⟨.ranges, 0⟩) := by decide

/-- C9: sequences shorter than the beam count are read past their end.  On
`fourOfEight` (`N = 8`, four entries in each sequence, all in range) no error
is raised before the scan: the pass at `i = 0` reads the indices 0 to 3, and
the pass at `i = 1` reads `ranges[4]`, one past the last entry. -/
theorem short_sequences_read_past_end :
    beamCount fourOfEight = some 8 ∧
    (fourOfEight.ranges.length : Int) < 8 ∧ (fourOfEight.intensities.length : Int) < 8 ∧
    fourOfEight.ranges[4]? = none ∧
    poiCallback fourOfEight = .error (.readPastEnd ⟨.ranges, 4⟩) :=
  ⟨by decide, by decide, by decide, by decide, by decide⟩

/-- C10: when both sequences hold at least `N` entries, every loop value `i`
has `i`, `i+1`, `i+2`, `i+3` below both lengths, the run completes, and every
index it reads from `ranges` or `intensities` is non-negative and strictly
below the length of that sequence. -/
theorem reads_in_bounds (scan : LaserScan) (N : Int) (hN : beamCount scan = some N)
    (hr : N ≤ scan.ranges.length) (hi : N ≤ scan.intensities.length) :
    (∀ i d : Nat, (i : Int) < N - 4 → d ≤ 3 →
      i + d < scan.ranges.length ∧ i + d < scan.intensities.length) ∧
    ∃ out, poiCallback scan = .ok out ∧
      ∀ a ∈ out.reads, (0 : Int) ≤ a.index ∧ a.index < (scan.seq a.channel).length := by
  refine ⟨?_, ?_⟩
  · intro i d hlt hd
    constructor <;> omega
  · obtain ⟨out, hrun, hreads⟩ := run_total hN (by omega) (by omega)
    exact ⟨out, hrun, fun a ha => ⟨Int.ofNat_nonneg _, hreads a ha⟩⟩

/-- On Example 1 (`N = 8`, eight entries) every read is in bounds. -/
theorem reads_in_bounds_witness :
    (∀ i d : Nat, (i : Int) < 8 - 4 → d ≤ 3 →
      i + d < example1.ranges.length ∧ i + d < example1.intensities.length) ∧
    ∃ out, poiCallback example1 = .ok out ∧
      ∀ a ∈ out.reads, (0 : Int) ≤ a.index ∧ a.index < (example1.seq a.channel).length :=
  reads_in_bounds example1 8 example1_beamCount (by decide) (by decide)

/-- With a zero `angle_increment` no `size` is computed: the quotient is an
infinity or NaN and the run stops at line 38. -/
theorem zero_increment_undefined (scan : LaserScan) (h : scan.angle_increment = .fin 0) :
    poiCallback scan = .error .undefinedSize := by
  have hs : size scan = none := by
    unfold size
    rw [h]
    cases fsub scan.angle_max scan.angle_min with
    | fin a =>
      simp only [fdiv, if_true]
      split_ifs <;> rfl
    | pinf => rfl
    | ninf => rfl
    | nan => rfl
  unfold poiCallback
  rw [hs]

theorem unit_ne_zero : (F32.unit : ℚ) ≠ 0 := by
  unfold F32.unit
  positivity

theorem toRat_ofInt (z : Int) : F32.toRat (F32.ofInt z) = z := by
  unfold F32.toRat F32.ofInt
  push_cast
  exact mul_div_cancel_right₀ _ unit_ne_zero

/-- Rounding toward zero of a float is the floor of its value when it is not
negative and the ceiling when it is. -/
theorem tdiv_unit (k : Int) :
    (0 ≤ k → k.tdiv (F32.unit : Int) = ⌊F32.toRat (.fin k)⌋) ∧
    (k < 0 → k.tdiv (F32.unit : Int) = ⌈F32.toRat (.fin k)⌉) := by
  constructor
  · intro hk
    unfold F32.toRat
    rw [Rat.floor_intCast_div_natCast, Int.tdiv_eq_ediv hk (Int.ofNat_nonneg _)]
  · intro hk
    have hceil : ⌈F32.toRat (.fin k)⌉ = -⌊((-k : Int) : ℚ) / (F32.unit : ℚ)⌋ := by
      unfold F32.toRat
      rw [Int.cast_neg, neg_div, Int.floor_neg, neg_neg]
    rw [hceil, Rat.floor_intCast_div_natCast,
      ← Int.tdiv_eq_ediv (by omega) (Int.ofNat_nonneg _), Int.neg_tdiv, neg_neg]

/-- C11, as stated, fails: on `halfStepBack` (`angle_increment = 2 > 0`,
every operation exact, quotient `-7/2`) the conversion gives `size = -3`,
while the floor of the quotient is `-4`. -/
theorem size_is_not_floor :
    flt 0 halfStepBack.angle_increment = true ∧ size halfStepBack = some (-3) ∧
    beamCount halfStepBack = some (-3) ∧
    ⌊(F32.toRat halfStepBack.angle_max - F32.toRat halfStepBack.angle_min) /
      F32.toRat halfStepBack.angle_increment⌋ = -4 := by
  refine ⟨by decide, by decide, by decide, ?_⟩
  have h1 : F32.toRat halfStepBack.angle_max = -7 := by
    show F32.toRat (F32.ofInt (-7)) = -7
    rw [toRat_ofInt]
    norm_num
  have h2 : F32.toRat halfStepBack.angle_min = 0 := by
    show F32.toRat (F32.ofInt 0) = 0
    rw [toRat_ofInt]
    norm_num
  have h3 : F32.toRat halfStepBack.angle_increment = 2 := by
    show F32.toRat (F32.ofInt 2) = 2
    rw [toRat_ofInt]
    norm_num
  rw [h1, h2, h3, Int.floor_eq_iff]
  constructor <;> norm_num

/-- The division of line 38 is rounded: on `tenthSteps` (`angle_min = 0`,
`angle_max` and `angle_increment` the floats nearest 0.7 and 0.1) the exact
quotient of the two floats is below 7, with floor 6, but the float quotient
is 7 and `size` is 7. -/
theorem rounded_quotient_exceeds_floor :
    flt 0 tenthSteps.angle_increment = true ∧
    fle tenthSteps.angle_min tenthSteps.angle_max = true ∧
    fdiv (fsub tenthSteps.angle_max tenthSteps.angle_min) tenthSteps.angle_increment = 7 ∧
    size tenthSteps = some 7 ∧
    ⌊(F32.toRat tenthSteps.angle_max - F32.toRat tenthSteps.angle_min) /
      F32.toRat tenthSteps.angle_increment⌋ = 6 := by
  refine ⟨by decide, by decide, by decide, by decide, ?_⟩
  have h2 : F32.toRat tenthSteps.angle_min = 0 := by
    show F32.toRat (F32.ofInt 0) = 0
    rw [toRat_ofInt]
    norm_num
  rw [h2, Int.floor_eq_iff]
  simp only [tenthSteps, F32.toRat, F32.dyadic, F32.unit]
  constructor <;> norm_num

/-- C11 (amended): `poiCallback` derives `size = N` exactly when the float
quotient of line 38 (the float difference `angle_max - angle_min` divided by
`angle_increment`, each operation rounded) is finite, `N` is that float
rounded toward zero, its floor when it is not negative and its ceiling when it
is negative, and `N` is an `int`. -/
theorem size_is_truncated_quotient (scan : LaserScan) (N : Int) :
    size scan = some N ↔
      ∃ k, fdiv (fsub scan.angle_max scan.angle_min) scan.angle_increment = .fin k ∧
        ((0 ≤ k ∧ N = ⌊F32.toRat (.fin k)⌋) ∨ (k < 0 ∧ N = ⌈F32.toRat (.fin k)⌉)) ∧
        INT_MIN ≤ N ∧ N ≤ INT_MAX := by
  unfold size
  constructor
  · intro hN
    cases hq : fdiv (fsub scan.angle_max scan.angle_min) scan.angle_increment with
    | fin k =>
      rw [hq] at hN
      simp only [F32.toInt] at hN
      split_ifs at hN with hr
      have hk : k.tdiv (F32.unit : Int) = N := Option.some.inj hN
      refine ⟨k, rfl, ?_, ?_, ?_⟩
      · rcases Int.lt_or_le k 0 with h | h
        · exact Or.inr ⟨h, by rw [← hk]; exact (tdiv_unit k).2 h⟩
        · exact Or.inl ⟨h, by rw [← hk]; exact (tdiv_unit k).1 h⟩
      · rw [← hk]
        exact hr.1
      · rw [← hk]
        exact hr.2
    | pinf =>
      rw [hq] at hN
      cases hN
    | ninf =>
      rw [hq] at hN
      cases hN
    | nan =>
      rw [hq] at hN
      cases hN
  · rintro ⟨k, hq, hval, hlo, hhi⟩
    have hk : k.tdiv (F32.unit : Int) = N := by
      rcases hval with ⟨h, e⟩ | ⟨h, e⟩
      · rw [e]
        exact (tdiv_unit k).1 h
      · rw [e]
        exact (tdiv_unit k).2 h
    rw [hq]
    simp only [F32.toInt]
    rw [hk, if_pos ⟨hlo, hhi⟩]

/-- On `tenthSteps` the size 7 is the floor of the float quotient 7; on
`halfStepBack` the size `-3` is the ceiling of the float quotient `-7/2`. -/
theorem size_is_truncated_quotient_witness :
    (∃ k, fdiv (fsub tenthSteps.angle_max tenthSteps.angle_min)
        tenthSteps.angle_increment = .fin k ∧
      ((0 ≤ k ∧ (7 : Int) = ⌊F32.toRat (.fin k)⌋) ∨
        (k < 0 ∧ (7 : Int) = ⌈F32.toRat (.fin k)⌉)) ∧ INT_MIN ≤ 7 ∧ 7 ≤ INT_MAX) ∧
    (∃ k, fdiv (fsub halfStepBack.angle_max halfStepBack.angle_min)
        halfStepBack.angle_increment = .fin k ∧
      ((0 ≤ k ∧ (-3 : Int) = ⌊F32.toRat (.fin k)⌋) ∨
        (k < 0 ∧ (-3 : Int) = ⌈F32.toRat (.fin k)⌉)) ∧ INT_MIN ≤ -3 ∧ -3 ≤ INT_MAX) :=
  ⟨(size_is_truncated_quotient tenthSteps 7).1 (by decide),
    (size_is_truncated_quotient halfStepBack (-3)).1 (by decide)⟩

theorem zero_eq : (0 : F32) = .fin 0 := by decide

/-- Under a negative `angle_increment` a positive `size` needs the float
difference `angle_max - angle_min` to be negative. -/
theorem positive_size_needs_backward_sweep {scan : LaserScan} {N : Int}
    (hneg : flt scan.angle_increment 0 = true) (hN : size scan = some N) (hpos : 0 < N) :
    flt (fsub scan.angle_max scan.angle_min) 0 = true := by
  unfold size at hN
  rw [zero_eq] at hneg ⊢
  cases hd : fsub scan.angle_max scan.angle_min with
  | fin a =>
    cases hi : scan.angle_increment with
    | fin b =>
      rw [hi] at hneg
      rw [hd, hi] at hN
      have hb : b < 0 := by simpa [flt] using hneg
      show flt (.fin a) (.fin 0) = true
      by_contra hcon
      have ha : ¬ a < 0 := by simpa [flt] using hcon
      have hflag : decide ((a < 0) ≠ (b < 0)) = true := by
        simp [ha, hb]
      simp only [fdiv, if_neg (ne_of_lt hb), hflag, round32_neg] at hN
      split_ifs at hN with hm
      · simp only [F32.toInt] at hN
        split_ifs at hN with hr
        have hk := Option.some.inj hN
        rw [Int.neg_tdiv] at hk
        have : 0 ≤ ((roundMag (a.natAbs * F32.unit) b.natAbs : Nat) : Int).tdiv
            (F32.unit : Int) :=
          Int.tdiv_nonneg (Int.ofNat_nonneg _) (Int.ofNat_nonneg _)
        omega
      · simp [F32.toInt] at hN
    | pinf =>
      rw [hi] at hneg
      simp [flt] at hneg
    | ninf =>
      rw [hd, hi] at hN
      simp only [fdiv, F32.toInt] at hN
      split_ifs at hN with hr
      have hk := Option.some.inj hN
      simp at hk
      omega
    | nan =>
      rw [hi] at hneg
      simp [flt] at hneg
  | pinf =>
    rw [hd] at hN
    cases hi : scan.angle_increment <;> rw [hi] at hN <;> simp [fdiv, F32.toInt] at hN
    split_ifs at hN
  | ninf => rfl
  | nan =>
    rw [hd] at hN
    simp [fdiv, F32.toInt] at hN

theorem size_of_beamCount {scan : LaserScan} {N : Int} (hN : beamCount scan = some N) :
    size scan = some N := by
  unfold beamCount at hN
  cases hs : size scan with
  | none => simp [hs] at hN
  | some sz =>
    simp only [hs] at hN
    cases hb : loopBound sz with
    | none => simp [hb] at hN
    | some bound =>
      simp only [hb, Option.some.injEq] at hN
      rw [hN]

/-- C8 (amended): a negative `angle_increment` is not rejected.  On a frame
with `angle_increment < 0` whose beam count `N` is defined, `N` is positive
only when the float difference `angle_max - angle_min` is negative, and when
the sequences hold at least `N` entries the run completes with every read in
bounds and prints a window or nothing. -/
theorem negative_increment_scanned (scan : LaserScan) (N : Int)
    (hneg : flt scan.angle_increment 0 = true) (hN : beamCount scan = some N)
    (hr : N ≤ scan.ranges.length) (hi : N ≤ scan.intensities.length) :
    (0 < N → flt (fsub scan.angle_max scan.angle_min) 0 = true) ∧
    ∃ out, poiCallback scan = .ok out ∧
      ∀ a ∈ out.reads, a.index < (scan.seq a.channel).length :=
  ⟨positive_size_needs_backward_sweep hneg (size_of_beamCount hN),
    run_total hN (by omega) (by omega)⟩

/-- On `negativeIncrement` the beam count is 5, the difference `-5 - 0` is
negative, and the run completes. -/
theorem negative_increment_scanned_witness :
    ((0 : Int) < 5 →
      flt (fsub negativeIncrement.angle_max negativeIncrement.angle_min) 0 = true) ∧
    ∃ out, poiCallback negativeIncrement = .ok out ∧
      ∀ a ∈ out.reads, a.index < (negativeIncrement.seq a.channel).length :=
  negative_increment_scanned negativeIncrement 5 (by decide)
    negativeIncrement_beamCount (by decide) (by decide)

/-- C12, as stated, fails: on `roundsTo90` (`N = 5`, five entries, all ranges
in bounds) index 0 is a loop value whose exact intensity sum `90 + 2^-20`
exceeds 90, yet the computed sum rounds to exactly 90 and `poiCallback` prints
nothing. -/
theorem exact_qualifier_not_printed :
    beamCount roundsTo90 = some 5 ∧
    (5 : Int) ≤ roundsTo90.ranges.length ∧ (5 : Int) ≤ roundsTo90.intensities.length ∧
    roundsTo90.wellFormed = true ∧
    (0 : Int) < 5 - 4 ∧ windowValid roundsTo90 0 ∧
    windowExact roundsTo90 0 (90 * (F32.unit : Int) + 2 ^ 129) ∧
    90 * (F32.unit : Int) < 90 * (F32.unit : Int) + 2 ^ 129 ∧
    windowSum roundsTo90 0 90 ∧
    ∃ rs, poiCallback roundsTo90 = .ok ⟨rs, none⟩ := by
  refine ⟨by decide, by decide, by decide, by decide, by decide, ?_, ?_, by decide, ?_,
    run_of_printedBy (by decide)⟩
  · exact ⟨⟨5, by decide, by decide, by decide⟩, ⟨5, by decide, by decide, by decide⟩,
      ⟨5, by decide, by decide, by decide⟩, ⟨5, by decide, by decide, by decide⟩⟩
  · exact ⟨_, _, _, _, rfl, rfl, rfl, rfl, by decide⟩
  · exact ⟨_, _, _, _, rfl, rfl, rfl, rfl, by decide⟩

/-- On a frame without NaN among its ranges and limits, a window that passes
the range test is valid. -/
theorem windowValid_of_passes {scan : LaserScan} {i : Nat} (hord : scan.rangesOrdered)
    (h : windowPasses scan i) : windowValid scan i := by
  obtain ⟨hmin, hmax, hall⟩ := hord
  have hr : ∀ (j : Nat) (r : F32), scan.ranges[j]? = some r → fle r r = true := by
    intro j r hj
    obtain ⟨hlt, rfl⟩ := List.getElem?_eq_some.1 hj
    exact hall _ (List.getElem_mem _)
  exact ⟨beamInRange_of_passes hmin hmax (hr i) h.1,
    beamInRange_of_passes hmin hmax (hr (i + 1)) h.2.1,
    beamInRange_of_passes hmin hmax (hr (i + 2)) h.2.2.1,
    beamInRange_of_passes hmin hmax (hr (i + 3)) h.2.2.2⟩

/-- C12 (amended): the loop as written (`i` from 0 while `i < N - 4`), on the
sums as computed.  On a frame without NaN among its ranges and limits whose
sequences hold at least `N` entries the run completes; it prints nothing
exactly when no start index qualifies; and a printed `(idx, score)` is a
qualifying index with its computed sum, `score` bounds the computed sum of
every qualifying index, `idx` is the least qualifying index with sum `score`,
and `score` differs from the sentinel 0. -/
theorem scan_characterisation (scan : LaserScan) (N : Int)
    (hN : beamCount scan = some N) (hr : N ≤ scan.ranges.length)
    (hi : N ≤ scan.intensities.length) (hord : scan.rangesOrdered) :
    ∃ out, poiCallback scan = .ok out ∧
      (out.printed = none ↔ ∀ i s, ¬ qualifying scan N i s) ∧
      (∀ idx score, out.printed = some (idx, score) →
        qualifying scan N idx score ∧
        (∀ j t, qualifying scan N j t → fle t score = true) ∧
        (∀ j, qualifying scan N j score → idx ≤ j) ∧
        fne score (.fin 0) = true) := by
  obtain ⟨out, hrun, _⟩ := run_total hN (by omega) (by omega)
  refine ⟨out, hrun, ⟨?_, ?_⟩, ?_⟩
  · intro hnone i s hq
    obtain ⟨hlt, hv, hs, h90⟩ := hq
    obtain ⟨idx, score, hp, _⟩ :=
      printed_of_qualifying hN hrun (by omega) (windowPasses_of_valid hv) hs h90
    rw [hnone] at hp
    cases hp
  · intro hno
    cases hp : out.printed with
    | none => rfl
    | some p =>
      obtain ⟨idx, score⟩ := p
      obtain ⟨h90, hidx, hv, hs, _, _⟩ := printed_spec hN hrun hp
      exact absurd ⟨by omega, windowValid_of_passes hord hv, hs, h90⟩ (hno idx score)
  · intro idx score hp
    obtain ⟨h90, hidx, hv, hs, hfirst, hmax⟩ := printed_spec hN hrun hp
    refine ⟨⟨by omega, windowValid_of_passes hord hv, hs, h90⟩, ?_, ?_, fne_zero_of_gt h90⟩
    · rintro j t ⟨hlt, hvj, hsj, htj⟩
      exact hmax j t (by omega) (windowPasses_of_valid hvj) hsj htj
    · rintro j ⟨_, hvj, hsj, _⟩
      by_contra hlt
      have := hfirst j score (not_le.1 hlt) (windowPasses_of_valid hvj) hsj
      rw [fle_refl_of_flt_left h90] at this
      cases this

/-- On `tiedWindows` (`N = 8`, eight entries, every range 5) the run completes
and its print is characterised by the qualifying indices. -/
theorem scan_characterisation_witness :
    ∃ out, poiCallback tiedWindows = .ok out ∧
      (out.printed = none ↔ ∀ i s, ¬ qualifying tiedWindows 8 i s) ∧
      (∀ idx score, out.printed = some (idx, score) →
        qualifying tiedWindows 8 idx score ∧
        (∀ j t, qualifying tiedWindows 8 j t → fle t score = true) ∧
        (∀ j, qualifying tiedWindows 8 j score → idx ≤ j) ∧
        fne score (.fin 0) = true) :=
  scan_characterisation tiedWindows 8 (by decide) (by decide) (by decide)
    ⟨by decide, by decide, by decide⟩

theorem windowExact_of_unrounded {scan : LaserScan} {i : Nat} {S : Int}
    (h : windowUnrounded scan i S) : windowExact scan i S := by
  obtain ⟨a, b, c, d, h0, h1, h2, h3, hs, _⟩ := h
  exact ⟨a, b, c, d, h0, h1, h2, h3, hs⟩

/-- A window summed without rounding has its exact sum as computed sum. -/
theorem windowSum_of_unrounded {scan : LaserScan} {i : Nat} {S : Int}
    (h : windowUnrounded scan i S) : windowSum scan i (.fin S) := by
  obtain ⟨a, b, c, d, h0, h1, h2, h3, hs, e1, e2, e3⟩ := h
  refine ⟨_, _, _, _, h0, h1, h2, h3, ?_⟩
  unfold sum4
  rw [e1, e2, e3, hs]

theorem windowExact_unique {scan : LaserScan} {i : Nat} {S T : Int}
    (hs : windowExact scan i S) (ht : windowExact scan i T) : S = T := by
  obtain ⟨a, b, c, d, h0, h1, h2, h3, rfl⟩ := hs
  obtain ⟨a2, b2, c2, d2, g0, g1, g2, g3, rfl⟩ := ht
  rw [h0] at g0
  rw [h1] at g1
  rw [h2] at g2
  rw [h3] at g3
  cases g0
  cases g1
  cases g2
  cases g3
  rfl

/-- The exact sum of a window after `intensities[k]` is raised from `x` to
`x + d`: the old sum plus `d` when the window holds `k`, the old sum
otherwise. -/
theorem windowExact_boost {scan : LaserScan} {j k : Nat} {x d T0 T1 : Int}
    (hx : scan.intensities[k]? = some (.fin x))
    (h0 : windowExact scan j T0)
    (h1 : windowExact { scan with intensities := scan.intensities.set k (.fin (x + d)) }
      j T1) :
    (j ≤ k ∧ k ≤ j + 3 → T1 = T0 + d) ∧ (¬ (j ≤ k ∧ k ≤ j + 3) → T1 = T0) := by
  have hlen : k < scan.intensities.length := (List.getElem?_eq_some.1 hx).1
  obtain ⟨a, b, c, e, g0, g1, g2, g3, rfl⟩ := h0
  have key : ∀ T, windowExact
      { scan with intensities := scan.intensities.set k (.fin (x + d)) } j T → T1 = T :=
    fun T hT => windowExact_unique h1 hT
  by_cases hin : j ≤ k ∧ k ≤ j + 3
  · refine ⟨fun _ => ?_, fun h => absurd hin h⟩
    have hcase : k = j ∨ k = j + 1 ∨ k = j + 2 ∨ k = j + 3 := by omega
    rcases hcase with rfl | rfl | rfl | rfl
    · rw [g0] at hx
      cases hx
      rw [key (x + d + b + c + e) ⟨x + d, b, c, e, List.getElem?_set_self hlen,
        by rw [← g1]; exact List.getElem?_set_ne (by omega),
        by rw [← g2]; exact List.getElem?_set_ne (by omega),
        by rw [← g3]; exact List.getElem?_set_ne (by omega), rfl⟩]
      omega
    · rw [g1] at hx
      cases hx
      rw [key (a + (x + d) + c + e) ⟨a, x + d, c, e,
        by rw [← g0]; exact List.getElem?_set_ne (by omega),
        List.getElem?_set_self hlen,
        by rw [← g2]; exact List.getElem?_set_ne (by omega),
        by rw [← g3]; exact List.getElem?_set_ne (by omega), rfl⟩]
      omega
    · rw [g2] at hx
      cases hx
      rw [key (a + b + (x + d) + e) ⟨a, b, x + d, e,
        by rw [← g0]; exact List.getElem?_set_ne (by omega),
        by rw [← g1]; exact List.getElem?_set_ne (by omega),
        List.getElem?_set_self hlen,
        by rw [← g3]; exact List.getElem?_set_ne (by omega), rfl⟩]
      omega
    · rw [g3] at hx
      cases hx
      rw [key (a + b + c + (x + d)) ⟨a, b, c, x + d,
        by rw [← g0]; exact List.getElem?_set_ne (by omega),
        by rw [← g1]; exact List.getElem?_set_ne (by omega),
        by rw [← g2]; exact List.getElem?_set_ne (by omega),
        List.getElem?_set_self hlen, rfl⟩]
      omega
  · refine ⟨fun h => absurd h hin, fun _ => ?_⟩
    exact key _ ⟨a, b, c, e,
      by rw [← g0]; exact List.getElem?_set_ne (by omega),
      by rw [← g1]; exact List.getElem?_set_ne (by omega),
      by rw [← g2]; exact List.getElem?_set_ne (by omega),
      by rw [← g3]; exact List.getElem?_set_ne (by omega), rfl⟩

/-- C13, as stated, fails: `faintTail` prints index 1 with score
`96 + 2^-17`; with `intensities[1]` raised from 96 by 32 (to exactly 128) the
sum of window 1, `128 + 2^-17`, rounds to 128, which is not above the 128 of
window 0, and `poiCallback` prints `(0, 128)`: the index moves and the score
does not rise by 32. -/
theorem boosted_winner_moves :
    faintTail.wellFormed = true ∧
    (∃ rs, poiCallback faintTail = .ok ⟨rs, some (1, F32.dyadic 12582913 132)⟩) ∧
    faintTail.intensities[1]? = some 96 ∧ flt 0 32 = true ∧ fadd 96 32 = 128 ∧
    (∃ rs, poiCallback
      { faintTail with intensities := faintTail.intensities.set 1 (fadd 96 32) } =
        .ok ⟨rs, some (0, .fin (128 * (F32.unit : Int)))⟩) ∧
    128 * (F32.unit : Int) < 12582913 * 2 ^ 132 + 32 * (F32.unit : Int) :=
  ⟨by decide, run_of_printedBy (by decide), by decide, by decide, by decide,
    run_of_printedBy (by decide), by decide⟩

/-- C13 (amended): winner stability under boosting, when nothing is rounded.
Let a run print `(idx, score)`, let `intensities[k] = x` for a position `k`
of the winning window `idx .. idx+3`, and let `d > 0` with `x + d` a float.
If every scanned window that passes the range test is summed without
rounding, on the frame and on the frame with `intensities[k]` raised to
`x + d`, then `score` is a finite `S` and the run on the raised frame prints
exactly `(idx, S + d)`. -/
theorem boosted_winner_stays (scan : LaserScan) (N : Int) (out : Outcome) (idx : Nat)
    (score : F32) (k : Nat) (x d : Int)
    (hN : beamCount scan = some N)
    (hrun : poiCallback scan = .ok out) (hrep : out.printed = some (idx, score))
    (hk1 : idx ≤ k) (hk2 : k ≤ idx + 3)
    (hx : scan.intensities[k]? = some (.fin x)) (hd : 0 < d)
    (hexact : ∀ j : Nat, (j : Int) < N - 4 → windowPasses scan j →
      (∃ T, windowUnrounded scan j T) ∧
      ∃ T, windowUnrounded
        { scan with intensities := scan.intensities.set k (.fin (x + d)) } j T) :
    ∃ S rs, score = .fin S ∧
      poiCallback { scan with intensities := scan.intensities.set k (.fin (x + d)) } =
        .ok ⟨rs, some (idx, .fin (S + d))⟩ := by
  have hN2 : beamCount { scan with intensities := scan.intensities.set k (.fin (x + d)) } =
      some N := hN
  obtain ⟨h90, hidx, hpass, hsum, hfirst, hmax⟩ := printed_spec hN hrun hrep
  obtain ⟨st, hl, _⟩ := run_ok hN hrun
  obtain ⟨st2, hl2⟩ := loopFrom_shape scan
    { scan with intensities := scan.intensities.set k (.fin (x + d)) } rfl rfl rfl
    (List.length_set ..) _ _ ⟨.fin 0, 0⟩ hl
  have hrun2 := run_of_loop hN2 hl2
  -- the winning window, before and after
  obtain ⟨⟨S, hS⟩, ⟨S2, hS2⟩⟩ := hexact idx (by omega) hpass
  have hscore : score = .fin S := windowSum_unique hsum (windowSum_of_unrounded hS)
  subst hscore
  have hS2eq : S2 = S + d :=
    (windowExact_boost hx (windowExact_of_unrounded hS) (windowExact_of_unrounded hS2)).1
      ⟨hk1, hk2⟩
  subst hS2eq
  have h90S : 90 * (F32.unit : Int) < S := by
    rw [ninety_eq] at h90
    simpa [flt] using h90
  have h90S2 : flt 90 (.fin (S + d)) = true := by
    rw [ninety_eq]
    simp only [flt, decide_eq_true_eq]
    omega
  have hpass2 :
      windowPasses { scan with intensities := scan.intensities.set k (.fin (x + d)) } idx :=
    hpass
  obtain ⟨idx2, score2, hp2, hle⟩ :=
    printed_of_qualifying hN2 hrun2 hidx hpass2 (windowSum_of_unrounded hS2) h90S2
  obtain ⟨_, hidx2, hpassB, hsumB, hfirst2, _⟩ := printed_spec hN2 hrun2 hp2
  have hpassA : windowPasses scan idx2 := hpassB
  -- the printed window of the raised frame, before and after
  obtain ⟨⟨T0, hT0⟩, ⟨T1, hT1⟩⟩ := hexact idx2 (by omega) hpassA
  have hscore2 : score2 = .fin T1 := windowSum_unique hsumB (windowSum_of_unrounded hT1)
  subst hscore2
  have hb := windowExact_boost hx (windowExact_of_unrounded hT0)
    (windowExact_of_unrounded hT1)
  have hT1le : T1 ≤ T0 + d := by
    by_cases hin : idx2 ≤ k ∧ k ≤ idx2 + 3
    · rw [hb.1 hin]
    · rw [hb.2 hin]
      omega
  have hT0le : T0 ≤ S := by
    by_cases h : 90 * (F32.unit : Int) < T0
    · have h90T : flt 90 (.fin T0) = true := by
        rw [ninety_eq]
        simpa [flt] using h
      have := hmax idx2 (.fin T0) hidx2 hpassA (windowSum_of_unrounded hT0) h90T
      simpa [fle] using this
    · omega
  have hge : S + d ≤ T1 := by simpa [fle] using hle
  have eT1 : T1 = S + d := by omega
  have eT0 : T0 = S := by omega
  subst eT1
  have hidxeq : idx2 = idx := by
    rcases Nat.lt_trichotomy idx2 idx with hlt | heq | hgt
    · have := hfirst idx2 (.fin T0) hlt hpassA (windowSum_of_unrounded hT0)
      rw [eT0] at this
      simp [fle] at this
    · exact heq
    · have := hfirst2 idx (.fin (S + d)) hgt hpass2 (windowSum_of_unrounded hS2)
      simp [fle] at this
  have hprint : report st2 = some (idx, .fin (S + d)) := by
    have : report st2 = some (idx2, .fin (S + d)) := hp2
    rw [this, hidxeq]
  refine ⟨S, out.reads, rfl, ?_⟩
  rw [hrun2, hprint]

/-- Example 1 prints `(2, 100)` and every sum on it is exact; with
`intensities[3]` raised from 40 by 5 it prints `(2, 105)`. -/
theorem boosted_winner_stays_witness :
    ∃ S rs, (100 : F32) = .fin S ∧
      poiCallback
        { example1 with
          intensities :=
            example1.intensities.set 3 (.fin (40 * (F32.unit : Int) + 5 * (F32.unit : Int))) } =
        .ok ⟨rs, some (2, .fin (S + 5 * (F32.unit : Int)))⟩ := by
  obtain ⟨rs, h⟩ := example1_run
  refine boosted_winner_stays example1 8 _ 2 100 3 (40 * (F32.unit : Int))
    (5 * (F32.unit : Int)) example1_beamCount h rfl (by decide) (by decide) (by decide)
    (by decide) ?_
  intro j hj _
  have hlt : j < 4 := by omega
  interval_cases j
  · exact ⟨⟨_, _, _, _, _, rfl, rfl, rfl, rfl, rfl, by decide, by decide, by decide⟩,
      ⟨_, _, _, _, _, rfl, rfl, rfl, rfl, rfl, by decide, by decide, by decide⟩⟩
  · exact ⟨⟨_, _, _, _, _, rfl, rfl, rfl, rfl, rfl, by decide, by decide, by decide⟩,
      ⟨_, _, _, _, _, rfl, rfl, rfl, rfl, rfl, by decide, by decide, by decide⟩⟩
  · exact ⟨⟨_, _, _, _, _, rfl, rfl, rfl, rfl, rfl, by decide, by decide, by decide⟩,
      ⟨_, _, _, _, _, rfl, rfl, rfl, rfl, rfl, by decide, by decide, by decide⟩⟩
  · exact ⟨⟨_, _, _, _, _, rfl, rfl, rfl, rfl, rfl, by decide, by decide, by decide⟩,
      ⟨_, _, _, _, _, rfl, rfl, rfl, rfl, rfl, by decide, by decide, by decide⟩⟩

end LaserIntensityPoi
